import Mathlib

/-!
Verification of the `oncalendar` library (systemd-style OnCalendar expression
parser and iterator) against its specification.

The development shallowly embeds `src/oncalendar/__init__.py`:

* Python `datetime.date` / `datetime.datetime` values become explicit records
  of calendar fields (`Date`, `DT`); one-second / one-day arithmetic becomes
  explicit carry arithmetic, and comparison is mediated by the injective
  linearization `DT.toMicros`.
* Python sets of ints become `Finset ℤ`; strings become `List Char`.
* Unbounded `while` loops become fueled recursions; the fuel constants used in
  the definitions are proved sufficient under the iterator invariants.
* `zoneinfo` time zones are abstracted as a pair of conversion functions
  between naive wall-clock datetimes and absolute time (`Zone`), which is what
  `datetime.astimezone` round-trips consume in `is_imaginary`.
-/

namespace OnCal

/-- Leap year test, as used by Python's `calendar.monthrange`. -/
def isLeap (y : ℕ) : Bool := (y % 4 == 0 && y % 100 != 0) || y % 400 == 0

/-- Number of days in month `m` of year `y` (the second component of
`calendar.monthrange(y, m)`). -/
def daysInMonth (y m : ℕ) : ℕ :=
  if m = 2 then (if isLeap y then 29 else 28)
  else if m = 4 ∨ m = 6 ∨ m = 9 ∨ m = 11 then 30
  else 31

theorem daysInMonth_pos (y m : ℕ) : 0 < daysInMonth y m := by
  unfold daysInMonth
  split
  · split <;> norm_num
  · split <;> norm_num

theorem daysInMonth_le (y m : ℕ) : daysInMonth y m ≤ 31 := by
  unfold daysInMonth
  split
  · split <;> norm_num
  · split <;> norm_num

theorem daysInMonth_ge (y m : ℕ) : 28 ≤ daysInMonth y m := by
  unfold daysInMonth
  split
  · split <;> norm_num
  · split <;> norm_num

/-- Days in year `y` strictly before month `m` (cumulative month lengths). -/
def dbm (y : ℕ) : ℕ → ℕ
  | 0 => 0
  | 1 => 0
  | m + 2 => dbm y (m + 1) + daysInMonth y (m + 1)

theorem dbm_succ (y m : ℕ) (h : 1 ≤ m) : dbm y (m + 1) = dbm y m + daysInMonth y m := by
  match m, h with
  | m + 1, _ => rfl

theorem dbm_13 (y : ℕ) : dbm y 13 = 365 + (if isLeap y then 1 else 0) := by
  cases h : isLeap y <;> simp [dbm, daysInMonth, h]

/-- Number of leap years in `1 .. y-1`. -/
def leapsBefore (y : ℕ) : ℕ := (y - 1) / 4 + (y - 1) / 400 - (y - 1) / 100

theorem leapsBefore_succ (y : ℕ) (hy : 1 ≤ y) :
    leapsBefore (y + 1) = leapsBefore y + (if isLeap y then 1 else 0) := by
  unfold leapsBefore
  have hiff : isLeap y = true ↔ ((y % 4 = 0 ∧ ¬ y % 100 = 0) ∨ y % 400 = 0) := by
    simp [isLeap]
  cases h : isLeap y
  · rw [h] at hiff
    simp only [Bool.false_eq_true, false_iff, not_or, not_and, not_not] at hiff
    simp only [Bool.false_eq_true, if_false]
    omega
  · rw [h] at hiff
    simp only [true_iff] at hiff
    simp only [if_true]
    omega

/-- A calendar date (`datetime.date`). -/
structure Date where
  year : ℕ
  month : ℕ
  day : ℕ
deriving DecidableEq, Repr

/-- Field ranges that Python's `datetime.date` guarantees. -/
def Date.Valid (d : Date) : Prop :=
  1 ≤ d.year ∧ 1 ≤ d.month ∧ d.month ≤ 12 ∧ 1 ≤ d.day ∧ d.day ≤ daysInMonth d.year d.month

instance (d : Date) : Decidable d.Valid := by unfold Date.Valid; infer_instance

/-- Rata-die linearization: number of days from 0001-01-01 to `d`
(`date.toordinal() - 1` in Python, on the proleptic Gregorian calendar). -/
def Date.toRD (d : Date) : ℕ :=
  365 * (d.year - 1) + leapsBefore d.year + dbm d.year d.month + (d.day - 1)

/-- `d + timedelta(days=1)`, written out on calendar fields. -/
def succDay (d : Date) : Date :=
  if d.day < daysInMonth d.year d.month then ⟨d.year, d.month, d.day + 1⟩
  else if d.month < 12 then ⟨d.year, d.month + 1, 1⟩
  else ⟨d.year + 1, 1, 1⟩

theorem succDay_valid {d : Date} (h : d.Valid) : (succDay d).Valid := by
  obtain ⟨h1, h2, h3, h4, h5⟩ := h
  unfold succDay
  split_ifs with hlt hm
  · exact ⟨show 1 ≤ d.year from h1, show 1 ≤ d.month from h2,
      show d.month ≤ 12 from h3, show 1 ≤ d.day + 1 by omega,
      show d.day + 1 ≤ daysInMonth d.year d.month by omega⟩
  · exact ⟨show 1 ≤ d.year from h1, show 1 ≤ d.month + 1 by omega,
      show d.month + 1 ≤ 12 by omega, show (1 : ℕ) ≤ 1 from le_refl 1,
      show 1 ≤ daysInMonth d.year (d.month + 1) from daysInMonth_pos _ _⟩
  · exact ⟨show 1 ≤ d.year + 1 by omega, show (1 : ℕ) ≤ 1 from le_refl 1,
      show (1 : ℕ) ≤ 12 by norm_num, show (1 : ℕ) ≤ 1 from le_refl 1,
      show 1 ≤ daysInMonth (d.year + 1) 1 from daysInMonth_pos _ _⟩

theorem dbm_le_succ (y m : ℕ) : dbm y m ≤ dbm y (m + 1) := by
  match m with
  | 0 => simp [dbm]
  | m + 1 => rw [dbm_succ y (m + 1) (by omega)]; exact Nat.le_add_right _ _

theorem dbm_mono (y : ℕ) {a b : ℕ} (h : a ≤ b) : dbm y a ≤ dbm y b := by
  induction b with
  | zero => simp_all
  | succ n ih =>
    rcases Nat.lt_or_ge a (n + 1) with hlt | hge
    · exact le_trans (ih (by omega)) (dbm_le_succ y n)
    · have : a = n + 1 := by omega
      simp [this]

theorem dbm_le_dbm13 (y m : ℕ) (h1 : 1 ≤ m) (h2 : m ≤ 12) :
    dbm y m + daysInMonth y m ≤ dbm y 13 := by
  rw [← dbm_succ y m h1]
  exact dbm_mono y (by omega)

theorem toRD_succDay {d : Date} (h : d.Valid) : (succDay d).toRD = d.toRD + 1 := by
  obtain ⟨h1, h2, h3, h4, h5⟩ := h
  unfold succDay Date.toRD
  split_ifs with hlt hm
  · show 365 * (d.year - 1) + leapsBefore d.year + dbm d.year d.month + (d.day + 1 - 1) = _
    omega
  · show 365 * (d.year - 1) + leapsBefore d.year + dbm d.year (d.month + 1) + (1 - 1) = _
    rw [dbm_succ d.year d.month h2]
    omega
  · show 365 * (d.year + 1 - 1) + leapsBefore (d.year + 1) + dbm (d.year + 1) 1 + (1 - 1) = _
    have hm12 : d.month = 12 := by omega
    have hdim : daysInMonth d.year 12 = 31 := by norm_num [daysInMonth]
    have h13 := dbm_13 d.year
    have h12 : dbm d.year 13 = dbm d.year 12 + 31 := by
      rw [dbm_succ d.year 12 (by norm_num), hdim]
    have hlb := leapsBefore_succ d.year h1
    rw [hm12] at h5 hlt
    have hday : d.day = 31 := by omega
    have hz : dbm (d.year + 1) 1 = 0 := rfl
    rw [hm12, hday, hz]
    omega

/-- Lexicographic strict order on date fields (Python compares dates this way). -/
def dlex (a b : Date) : Prop :=
  a.year < b.year ∨ (a.year = b.year ∧
    (a.month < b.month ∨ (a.month = b.month ∧ a.day < b.day)))

theorem toRD_lt_within_year {a b : Date} (ha : a.Valid) (hb : b.Valid)
    (hy : a.year = b.year)
    (hmd : a.month < b.month ∨ (a.month = b.month ∧ a.day < b.day)) :
    a.toRD < b.toRD := by
  obtain ⟨ha1, ha2, ha3, ha4, ha5⟩ := ha
  obtain ⟨hb1, hb2, hb3, hb4, hb5⟩ := hb
  unfold Date.toRD
  rw [hy]
  rcases hmd with hm | ⟨hm, hd⟩
  · have step : dbm b.year a.month + daysInMonth b.year a.month = dbm b.year (a.month + 1) :=
      (dbm_succ b.year a.month ha2).symm
    have mono : dbm b.year (a.month + 1) ≤ dbm b.year b.month := dbm_mono b.year (by omega)
    have : daysInMonth a.year a.month = daysInMonth b.year a.month := by rw [hy]
    omega
  · rw [hm]
    omega

theorem toRD_lt_next_year {d : Date} (h : d.Valid) :
    d.toRD < (Date.mk (d.year + 1) 1 1).toRD := by
  obtain ⟨h1, h2, h3, h4, h5⟩ := h
  unfold Date.toRD
  have hcap := dbm_le_dbm13 d.year d.month h2 h3
  have h13 := dbm_13 d.year
  have hlb := leapsBefore_succ d.year h1
  show _ < 365 * (d.year + 1 - 1) + leapsBefore (d.year + 1) + dbm (d.year + 1) 1 + (1 - 1)
  have hz : dbm (d.year + 1) 1 = 0 := rfl
  rw [hz]
  omega

theorem toRD_jan1_mono {a b : ℕ} (ha : 1 ≤ a) (hab : a ≤ b) :
    (Date.mk a 1 1).toRD ≤ (Date.mk b 1 1).toRD := by
  induction b with
  | zero => omega
  | succ n ih =>
    rcases Nat.lt_or_ge a (n + 1) with hlt | hge
    · have hn : 1 ≤ n := by omega
      have h1 : (Date.mk n 1 1).toRD < (Date.mk (n + 1) 1 1).toRD :=
        toRD_lt_next_year (d := Date.mk n 1 1)
          ⟨hn, le_refl 1, by norm_num, le_refl 1, daysInMonth_pos _ _⟩
      have h2 := ih (by omega)
      omega
    · have : a = n + 1 := by omega
      subst this
      rfl

/-- `toRD` is strictly monotone with respect to field-lexicographic order on
valid dates. -/
theorem toRD_lt_of_dlex {a b : Date} (ha : a.Valid) (hb : b.Valid) (h : dlex a b) :
    a.toRD < b.toRD := by
  rcases h with hy | ⟨hy, hmd⟩
  · have s1 : a.toRD < (Date.mk (a.year + 1) 1 1).toRD := toRD_lt_next_year ha
    have s2 : (Date.mk (a.year + 1) 1 1).toRD ≤ (Date.mk b.year 1 1).toRD :=
      toRD_jan1_mono (by omega) (by omega)
    have s3 : (Date.mk b.year 1 1).toRD ≤ b.toRD := by
      have hbm1 : 1 ≤ b.month := hb.2.1
      have hbd1 : 1 ≤ b.day := hb.2.2.2.1
      rcases Nat.lt_or_ge 1 b.month with hm | hm
      · exact le_of_lt (toRD_lt_within_year
          ⟨hb.1, le_refl 1, by norm_num, le_refl 1, daysInMonth_pos _ _⟩ hb rfl (Or.inl hm))
      · have hbm : b.month = 1 := by omega
        rcases Nat.lt_or_ge 1 b.day with hd | hd
        · exact le_of_lt (toRD_lt_within_year
            ⟨hb.1, le_refl 1, by norm_num, le_refl 1, daysInMonth_pos _ _⟩ hb rfl
            (Or.inr ⟨hbm.symm, hd⟩))
        · have hbd : b.day = 1 := by omega
          have : b = Date.mk b.year 1 1 := by
            cases b; simp_all
          rw [← this]
    omega
  · exact toRD_lt_within_year ha hb hy hmd

/-- A naive `datetime.datetime` value: calendar date plus time of day plus
microseconds. -/
structure DT where
  year : ℕ
  month : ℕ
  day : ℕ
  hour : ℕ
  minute : ℕ
  second : ℕ
  micro : ℕ
deriving DecidableEq, Repr

/-- The `date()` part of a datetime. -/
def DT.date (t : DT) : Date := ⟨t.year, t.month, t.day⟩

/-- Field ranges that Python's `datetime.datetime` guarantees. -/
def DT.Valid (t : DT) : Prop :=
  t.date.Valid ∧ t.hour < 24 ∧ t.minute < 60 ∧ t.second < 60 ∧ t.micro < 1000000

instance (t : DT) : Decidable t.Valid := by unfold DT.Valid; infer_instance

/-- Injective linearization of a datetime into microseconds since the epoch of
`Date.toRD`; Python's datetime comparison agrees with comparing these numbers
(for valid datetimes). -/
def DT.toMicros (t : DT) : ℕ :=
  ((((t.date.toRD * 24 + t.hour) * 60 + t.minute) * 60 + t.second)) * 1000000 + t.micro

/-- Whole seconds of `toMicros`. -/
def DT.toSecs (t : DT) : ℕ :=
  ((t.date.toRD * 24 + t.hour) * 60 + t.minute) * 60 + t.second

/-- `datetime.combine(needle, time())`: midnight of a date (microsecond 0). -/
def combine (d : Date) : DT := ⟨d.year, d.month, d.day, 0, 0, 0, 0⟩

/-- `dt + timedelta(seconds=1)`, written out with explicit carries. -/
def DT.addSecond (t : DT) : DT :=
  if t.second + 1 < 60 then { t with second := t.second + 1 }
  else if t.minute + 1 < 60 then { t with second := 0, minute := t.minute + 1 }
  else if t.hour + 1 < 24 then { t with second := 0, minute := 0, hour := t.hour + 1 }
  else
    let d := succDay t.date
    ⟨d.year, d.month, d.day, 0, 0, 0, t.micro⟩

/-- `dt + timedelta(minutes=1)`, written out with explicit carries. -/
def DT.addMinute (t : DT) : DT :=
  if t.minute + 1 < 60 then { t with minute := t.minute + 1 }
  else if t.hour + 1 < 24 then { t with minute := 0, hour := t.hour + 1 }
  else
    let d := succDay t.date
    ⟨d.year, d.month, d.day, 0, 0, t.second, t.micro⟩

/-- `dt + timedelta(hours=1)`, written out with explicit carries. -/
def DT.addHour (t : DT) : DT :=
  if t.hour + 1 < 24 then { t with hour := t.hour + 1 }
  else
    let d := succDay t.date
    ⟨d.year, d.month, d.day, 0, t.minute, t.second, t.micro⟩

theorem DT.date_valid_succ {t : DT} (h : t.Valid) : (succDay t.date).Valid :=
  succDay_valid h.1

theorem addSecond_valid {t : DT} (h : t.Valid) : t.addSecond.Valid := by
  obtain ⟨hd, hh, hm, hs, hu⟩ := h
  unfold DT.addSecond
  split_ifs with c1 c2 c3
  · exact ⟨hd, hh, hm, by show t.second + 1 < 60; omega, hu⟩
  · exact ⟨hd, hh, by show t.minute + 1 < 60; omega, by show (0 : ℕ) < 60; norm_num, hu⟩
  · exact ⟨hd, by show t.hour + 1 < 24; omega, by show (0 : ℕ) < 60; norm_num,
      by show (0 : ℕ) < 60; norm_num, hu⟩
  · refine ⟨?_, by show (0 : ℕ) < 24; norm_num, by show (0 : ℕ) < 60; norm_num,
      by show (0 : ℕ) < 60; norm_num, hu⟩
    have := succDay_valid hd
    simpa [DT.date] using this

theorem toMicros_addSecond {t : DT} (h : t.Valid) :
    t.addSecond.toMicros = t.toMicros + 1000000 := by
  obtain ⟨hd, hh, hm, hs, hu⟩ := h
  unfold DT.addSecond DT.toMicros
  split_ifs with c1 c2 c3
  · show ((((t.date.toRD * 24 + t.hour) * 60 + t.minute) * 60 + (t.second + 1))) * 1000000
      + t.micro = _
    ring
  · show ((((t.date.toRD * 24 + t.hour) * 60 + (t.minute + 1)) * 60 + 0)) * 1000000
      + t.micro = _
    have : t.second = 59 := by omega
    rw [this]; ring
  · show ((((t.date.toRD * 24 + (t.hour + 1)) * 60 + 0) * 60 + 0)) * 1000000 + t.micro = _
    have h1 : t.second = 59 := by omega
    have h2 : t.minute = 59 := by omega
    rw [h1, h2]; ring
  · have hrd : (succDay t.date).toRD = t.date.toRD + 1 := toRD_succDay hd
    have e : (DT.mk (succDay t.date).year (succDay t.date).month (succDay t.date).day
        0 0 0 t.micro).date = succDay t.date := rfl
    show (((((DT.mk (succDay t.date).year (succDay t.date).month (succDay t.date).day
        0 0 0 t.micro).date.toRD * 24 + 0) * 60 + 0) * 60 + 0)) * 1000000 + t.micro = _
    rw [e, hrd]
    have h1 : t.second = 59 := by omega
    have h2 : t.minute = 59 := by omega
    have h3 : t.hour = 23 := by omega
    rw [h1, h2, h3]; ring

theorem addMinute_valid {t : DT} (h : t.Valid) : t.addMinute.Valid := by
  obtain ⟨hd, hh, hm, hs, hu⟩ := h
  unfold DT.addMinute
  split_ifs with c1 c2
  · exact ⟨hd, hh, by show t.minute + 1 < 60; omega, hs, hu⟩
  · exact ⟨hd, by show t.hour + 1 < 24; omega, by show (0 : ℕ) < 60; norm_num, hs, hu⟩
  · refine ⟨?_, by show (0 : ℕ) < 24; norm_num, by show (0 : ℕ) < 60; norm_num, hs, hu⟩
    have := succDay_valid hd
    simpa [DT.date] using this

theorem toMicros_addMinute {t : DT} (h : t.Valid) :
    t.addMinute.toMicros = t.toMicros + 60000000 := by
  obtain ⟨hd, hh, hm, hs, hu⟩ := h
  unfold DT.addMinute DT.toMicros
  split_ifs with c1 c2
  · show ((((t.date.toRD * 24 + t.hour) * 60 + (t.minute + 1)) * 60 + t.second)) * 1000000
      + t.micro = _
    ring
  · show ((((t.date.toRD * 24 + (t.hour + 1)) * 60 + 0) * 60 + t.second)) * 1000000
      + t.micro = _
    have : t.minute = 59 := by omega
    rw [this]; ring
  · have hrd : (succDay t.date).toRD = t.date.toRD + 1 := toRD_succDay hd
    have e : (DT.mk (succDay t.date).year (succDay t.date).month (succDay t.date).day
        0 0 t.second t.micro).date = succDay t.date := rfl
    show (((((DT.mk (succDay t.date).year (succDay t.date).month (succDay t.date).day
        0 0 t.second t.micro).date.toRD * 24 + 0) * 60 + 0) * 60 + t.second)) * 1000000
      + t.micro = _
    rw [e, hrd]
    have h1 : t.minute = 59 := by omega
    have h2 : t.hour = 23 := by omega
    rw [h1, h2]; ring

/-- The seven constrained fields (`class Field(IntEnum)`). -/
inductive Field
  | dow
  | year
  | month
  | day
  | hour
  | minute
  | second
deriving DecidableEq, Repr

/-- `OnCalendarError` payloads, distinguished by their message strings. -/
inductive Err
  | badField (f : Field)
  | wrongNumberOfFields
  | badTime
  | badDate
  | notAware
deriving DecidableEq, Repr

/-- systemd stops iterating at year 2200 (`MAX_YEAR`). -/
def MAX_YEAR : ℕ := 2200

/-- Lower bound (inclusive) of `RANGES[f]`. -/
def rangeLo : Field → ℤ
  | .dow => 0
  | .year => 1970
  | .month => 1
  | .day => 1
  | .hour => 0
  | .minute => 0
  | .second => 0

/-- Upper bound (exclusive) of `RANGES[f]`. -/
def rangeHi : Field → ℤ
  | .dow => 7
  | .year => 2200
  | .month => 13
  | .day => 32
  | .hour => 24
  | .minute => 60
  | .second => 60

/-- `set(RANGES[f])`. -/
def rangeSet (f : Field) : Finset ℤ := Finset.Ico (rangeLo f) (rangeHi f)

/-- `max(RANGES[f])`. -/
def rangeMax (f : Field) : ℤ := rangeHi f - 1

def digitChars : List Char := '0' :: '1' :: '2' :: '3' :: '4' :: '5' :: '6' :: '7' :: '8' :: '9' :: []

/-- Decimal value of a digit string (Python `int(value)` on an all-digit string). -/
def digitsVal (l : List Char) : ℕ := l.foldl (fun a c => a * 10 + (c.toNat - 48)) 0

def SYMBOLIC_DAYS : List (List Char) :=
  ["MONDAY".data, "TUESDAY".data, "WEDNESDAY".data, "THURSDAY".data,
   "FRIDAY".data, "SATURDAY".data, "SUNDAY".data]

def SYMBOLIC_DAYS_SHORT : List (List Char) := SYMBOLIC_DAYS.map (List.take 3)

/-- Split a character list at every character satisfying `p`
(auxiliary: returns the first group and the remaining groups). -/
def splitByAux (p : Char → Bool) : List Char → List Char × List (List Char)
  | [] => ([], [])
  | x :: t =>
    let r := splitByAux p t
    if p x then ([], r.1 :: r.2) else (x :: r.1, r.2)

/-- Python `s.split(c)` for a single-character separator. -/
def splitChar (c : Char) (l : List Char) : List (List Char) :=
  let r := splitByAux (fun x => x = c) l
  r.1 :: r.2

/-- Python `s.split(c, maxsplit=1)` for a single-character separator,
`none` when the separator does not occur. -/
def splitOnceChar (c : Char) : List Char → Option (List Char × List Char)
  | [] => none
  | x :: t =>
    if x = c then some ([], t)
    else (splitOnceChar c t).map (fun p => (x :: p.1, p.2))

/-- Python `s.split("..", maxsplit=1)`, `none` when `".."` does not occur. -/
def splitOnceDotDot : List Char → Option (List Char × List Char)
  | [] => none
  | x :: t =>
    if x = '.' then
      match t with
      | y :: t2 =>
        if y = '.' then some ([], t2)
        else (splitOnceDotDot t).map (fun p => (x :: p.1, p.2))
      | [] => none
    else (splitOnceDotDot t).map (fun p => (x :: p.1, p.2))

/-- Python `s.replace(c, rep)` for a single-character pattern. -/
def replaceChar (c : Char) (rep : List Char) (l : List Char) : List Char :=
  (l.map (fun x => if x = c then rep else [x])).flatten

/-- Python `lst[::n]` for a positive step `n`. -/
def everyNth (n : ℕ) (l : List ℤ) : List ℤ :=
  (l.enum.filter (fun p => p.1 % n = 0)).map Prod.snd

/-- Python `list(range(a, b))` over the integers. -/
def rangeList (a b : ℤ) : List ℤ :=
  (List.range (b - a).toNat).map (fun (k : ℕ) => a + (k : ℤ))

/-- `Field._int`: digits-only string to integer, `OnCalendarError` otherwise. -/
def Field.intRaw (f : Field) (value : List Char) : Except Err ℤ :=
  if value = [] then .error (.badField f)
  else if value.all (fun ch => digitChars.contains ch) then .ok (digitsVal value : ℤ)
  else .error (.badField f)

/-- The two sequential two-digit-year reinterpretation conditionals of
`Field.int` (`0-69 -> 2000-2069`, then `70-99 -> 1970-1999`). -/
def yearAdjust (f : Field) (v0 : ℤ) : ℤ :=
  if f = .year ∧ (if f = .year ∧ v0 < 70 then v0 + 2000 else v0) < 100 then
    (if f = .year ∧ v0 < 70 then v0 + 2000 else v0) + 1900
  else (if f = .year ∧ v0 < 70 then v0 + 2000 else v0)

/-- Python `lst.index(x)` (first index of `x`; callers check membership
first). -/
def listIndex (x : List Char) : List (List Char) → ℕ
  | [] => 0
  | y :: t => if y = x then 0 else listIndex x t + 1

theorem listIndex_lt_length {x : List Char} :
    ∀ {l : List (List Char)}, x ∈ l → listIndex x l < l.length := by
  intro l
  induction l with
  | nil => intro h; exact absurd h (List.not_mem_nil x)
  | cons y t ih =>
    intro h
    rw [show listIndex x (y :: t) = (if y = x then 0 else listIndex x t + 1) from rfl]
    split_ifs with hy
    · simp
    · have hx : x ∈ t := by
        rcases List.mem_cons.mp h with rfl | h2
        · exact absurd rfl hy
        · exact h2
      have := ih hx
      rw [List.length_cons]
      omega

/-- `Field.int`: symbolic weekday names, two-digit year reinterpretation, and
the field range check. -/
def Field.int (f : Field) (s : List Char) : Except Err ℤ :=
  if f = .dow then
    if s.map Char.toUpper ∈ SYMBOLIC_DAYS then
      .ok (listIndex (s.map Char.toUpper) SYMBOLIC_DAYS : ℤ)
    else if s.map Char.toUpper ∈ SYMBOLIC_DAYS_SHORT then
      .ok (listIndex (s.map Char.toUpper) SYMBOLIC_DAYS_SHORT : ℤ)
    else .error (.badField f)
  else do
    let v0 ← f.intRaw s
    if yearAdjust f v0 ∈ rangeSet f then pure (yearAdjust f v0)
    else .error (.badField f)

/-- `Field.parse`, with explicit recursion fuel (the Python recursion depth is
bounded by a small constant; fuel is proved irrelevant where it matters). -/
def parseF (f : Field) : ℕ → List Char → Bool → Except Err (Finset ℤ)
  | 0, _, _ => .error (.badField f)
  | fuel + 1, s, reverse =>
    if f = .day ∧ s.head? = some '~' then parseF f fuel s.tail true
    else if f ≠ .dow ∧ s = ['*'] then .ok (rangeSet f)
    else if s.contains '*' then .error (.badField f)
    else if f = .dow ∧ s.getLast? = some ',' then parseF f fuel s.dropLast false
    else if f = .dow ∧ s.contains '-' then
      parseF f fuel (replaceChar '-' ('.' :: '.' :: []) s) false
    else if s.contains ',' then
      (splitChar ',' s).foldlM (fun acc term => do
        let r ← parseF f fuel term reverse
        pure (acc ∪ r)) (∅ : Finset ℤ)
    else if s.contains '/' ∧ f ≠ .dow then
      match splitOnceChar '/' s with
      | some (term, stepStr) => do
        let step ← f.intRaw stepStr
        if step = 0 then .error (.badField f)
        else do
          let items ← parseF f fuel term reverse
          if items.card = 1 then
            .ok (everyNth step.toNat
              (rangeList ((items.sort (· ≤ ·)).headI)
                ((if reverse then 0 else rangeMax f) + 1))).toFinset
          else
            .ok (everyNth step.toNat (items.sort (· ≤ ·))).toFinset
      | none => .error (.badField f)
    else
      match splitOnceDotDot s with
      | some (startStr, endStr) => do
        let start ← f.int startStr
        let e ← f.int endStr
        if e < start then .error (.badField f)
        else if reverse then .ok (Finset.Icc (-e) (-start))
        else .ok (Finset.Icc start e)
      | none => do
        let v ← f.int s
        if reverse then
          if v > 28 then .error (.badField f) else .ok ({-v} : Finset ℤ)
        else .ok ({v} : Finset ℤ)

/-- `Field.parse` with enough fuel for its bounded recursion depth. -/
def Field.parse (f : Field) (s : List Char) (reverse : Bool := false) :
    Except Err (Finset ℤ) :=
  parseF f (s.length + 4) s reverse

instance {ε α : Type} [DecidableEq ε] [DecidableEq α] : DecidableEq (Except ε α) := fun x y =>
  match x, y with
  | .error a, .error b =>
    if h : a = b then isTrue (h ▸ rfl) else isFalse (fun hc => h (Except.error.inj hc))
  | .error _, .ok _ => isFalse (fun hc => Except.noConfusion hc)
  | .ok _, .error _ => isFalse (fun hc => Except.noConfusion hc)
  | .ok a, .ok b =>
    if h : a = b then isTrue (h ▸ rfl) else isFalse (fun hc => h (Except.ok.inj hc))

/-- A time zone, abstracted as the pair of conversions that
`datetime.astimezone` performs between this zone's wall clock (with `fold=0`)
and absolute time. -/
structure Zone where
  toUTC : DT → ℤ
  ofUTC : ℤ → DT

/-- `is_imaginary`: `dt != dt.astimezone(UTC).astimezone(dt.tzinfo)`. -/
def is_imaginary (z : Zone) (dt : DT) : Bool := decide (z.ofUTC (z.toUTC dt) ≠ dt)

/-- The `tzinfo` attached to the `start` datetime handed to `BaseIterator`. -/
inductive TzInfo
  | naive
  | utc
  | zone (z : Zone)

/-- `start.replace(microsecond=0)`. -/
def truncMicro (t : DT) : DT := { t with micro := 0 }

/-- `dt + timedelta(seconds=n)`. -/
def addSeconds (n : ℕ) (dt : DT) : DT := DT.addSecond^[n] dt

/-- The state of a `BaseIterator`: the seven parsed field sets, the DST fixup
zone, the cached reverse-day flag, and the cursor. -/
structure IterState where
  weekdays : Finset ℤ
  years : Finset ℤ
  months : Finset ℤ
  days : Finset ℤ
  hours : Finset ℤ
  minutes : Finset ℤ
  seconds : Finset ℤ
  fixupTz : Option Zone
  anyReverseDay : Bool
  dt : DT

/-- The `while` loop of `advance_second`. -/
def secLoop (seconds : Finset ℤ) : ℕ → DT → DT
  | 0, dt => dt
  | fuel + 1, dt =>
    if (dt.second : ℤ) ∈ seconds then dt
    else if dt.addSecond.second = 0 then dt.addSecond
    else secLoop seconds fuel dt.addSecond

/-- `BaseIterator.advance_second` (including the singleton-set jump
optimization: `next(iter(seconds))` is the sole element of the set). -/
def advance_second (seconds : Finset ℤ) (dt : DT) : Bool × DT :=
  if (dt.second : ℤ) ∈ seconds then (false, dt)
  else if seconds.card = 1 then
    (true, secLoop seconds 60
      (addSeconds (((seconds.sort (· ≤ ·)).headI - (dt.second : ℤ)) % 60).toNat dt))
  else (true, secLoop seconds 60 dt)

/-- The `while` loop of `advance_minute`. -/
def minLoop (minutes : Finset ℤ) : ℕ → DT → DT
  | 0, dt => dt
  | fuel + 1, dt =>
    if (dt.minute : ℤ) ∈ minutes then dt
    else if dt.addMinute.minute = 0 then dt.addMinute
    else minLoop minutes fuel dt.addMinute

/-- `BaseIterator.advance_minute`. -/
def advance_minute (minutes : Finset ℤ) (dt : DT) : Bool × DT :=
  if (dt.minute : ℤ) ∈ minutes then (false, dt)
  else (true, minLoop minutes 60 { dt with second := 0 })

/-- The `while` loop of `advance_hour`. -/
def hourLoop (hours : Finset ℤ) : ℕ → DT → DT
  | 0, dt => dt
  | fuel + 1, dt =>
    if (dt.hour : ℤ) ∈ hours then dt
    else if dt.addHour.hour = 0 then dt.addHour
    else hourLoop hours fuel dt.addHour

/-- `BaseIterator.advance_hour`. -/
def advance_hour (hours : Finset ℤ) (dt : DT) : Bool × DT :=
  if (dt.hour : ℤ) ∈ hours then (false, dt)
  else (true, hourLoop hours 24 { dt with minute := 0, second := 0 })

/-- `BaseIterator.match_dom`: day-of-month match, including the
`day - monthrange(...)[1] - 1` check for negative (from-the-end) members. -/
def match_dom (days : Finset ℤ) (anyReverseDay : Bool) (d : Date) : Bool :=
  if (d.day : ℤ) ∈ days then true
  else if anyReverseDay then
    decide (((d.day : ℤ) - (daysInMonth d.year d.month : ℤ) - 1) ∈ days)
  else false

/-- `BaseIterator.match_dow` (`date.weekday()` is Monday=0). -/
def match_dow (weekdays : Finset ℤ) (d : Date) : Bool :=
  decide (((d.toRD % 7 : ℕ) : ℤ) ∈ weekdays)

/-- The `while` loop of `advance_day`. -/
def dayLoop (weekdays days : Finset ℤ) (anyRev : Bool) : ℕ → Date → Date
  | 0, needle => needle
  | fuel + 1, needle =>
    if match_dow weekdays needle ∧ match_dom days anyRev needle then needle
    else if (succDay needle).day = 1 then succDay needle
    else dayLoop weekdays days anyRev fuel (succDay needle)

/-- `BaseIterator.advance_day`. -/
def advance_day (weekdays days : Finset ℤ) (anyRev : Bool) (dt : DT) : Bool × DT :=
  if match_dow weekdays dt.date ∧ match_dom days anyRev dt.date then (false, dt)
  else (true, combine (dayLoop weekdays days anyRev 31 dt.date))

/-- `d + timedelta(days=n)`. -/
def addDays (n : ℕ) (d : Date) : Date := succDay^[n] d

/-- `(needle.replace(day=1) + timedelta(days=32)).replace(day=1)`. -/
def monthFirstStep (needle : Date) : Date :=
  Date.mk (addDays 32 (Date.mk needle.year needle.month 1)).year
    (addDays 32 (Date.mk needle.year needle.month 1)).month 1

/-- The `while` loop of `advance_month`. -/
def monthLoop (months : Finset ℤ) : ℕ → Date → Date
  | 0, needle => needle
  | fuel + 1, needle =>
    if (needle.month : ℤ) ∈ months then needle
    else monthLoop months fuel (monthFirstStep needle)

/-- `BaseIterator.advance_month`. -/
def advance_month (months : Finset ℤ) (dt : DT) : Bool × DT :=
  if (dt.month : ℤ) ∈ months then (false, dt)
  else (true, combine (monthLoop months 12 dt.date))

/-- The `while` loop of `advance_year` (stops at a year in the set or at
`MAX_YEAR`). -/
def yearLoop (years : Finset ℤ) : ℕ → Date → Date
  | 0, needle => needle
  | fuel + 1, needle =>
    if (needle.year : ℤ) ∈ years ∨ MAX_YEAR ≤ needle.year then needle
    else yearLoop years fuel ⟨needle.year + 1, 1, 1⟩

/-- `BaseIterator.advance_year`. -/
def advance_year (years : Finset ℤ) (dt : DT) : DT :=
  if (dt.year : ℤ) ∈ years then dt
  else combine (yearLoop years MAX_YEAR dt.date)

/-- Outcome of one `__next__` call. `timeout` is fuel exhaustion, which is not
a Python outcome; the termination theorem shows it is unreachable with enough
fuel. -/
inductive PullResult
  | timeout
  | stop
  | value (r : DT) (st : IterState)

/-- The `while True` loop of `BaseIterator.__next__`. Each advance method is
consulted in order; a `True` return ("rolled forward") restarts the loop, as
`continue` does in the source. -/
def loopF : ℕ → IterState → PullResult
  | 0, _ => .timeout
  | fuel + 1, st =>
    let dt1 := advance_year st.years st.dt
    if MAX_YEAR ≤ dt1.year then .stop
    else if (advance_month st.months dt1).1 then
      loopF fuel { st with dt := (advance_month st.months dt1).2 }
    else if (advance_day st.weekdays st.days st.anyReverseDay dt1).1 then
      loopF fuel { st with dt := (advance_day st.weekdays st.days st.anyReverseDay dt1).2 }
    else if (advance_hour st.hours dt1).1 then
      loopF fuel { st with dt := (advance_hour st.hours dt1).2 }
    else if (advance_minute st.minutes dt1).1 then
      loopF fuel { st with dt := (advance_minute st.minutes dt1).2 }
    else if (advance_second st.seconds dt1).1 then
      loopF fuel { st with dt := (advance_second st.seconds dt1).2 }
    else
      st.fixupTz.elim (.value dt1 { st with dt := dt1 }) (fun z =>
        if is_imaginary z dt1 then loopF fuel { st with dt := dt1.addSecond }
        else .value dt1 { st with dt := dt1 })

/-- `BaseIterator.__next__`: add one second, then run the cascade loop. -/
def pullF (fuel : ℕ) (st : IterState) : PullResult :=
  loopF fuel { st with dt := st.dt.addSecond }

def SPECIALS : List (List Char × List Char) :=
  [("minutely".data, "*-*-* *:*:00".data),
   ("hourly".data, "*-*-* *:00:00".data),
   ("daily".data, "*-*-* 00:00:00".data),
   ("monthly".data, "*-*-01 00:00:00".data),
   ("weekly".data, "Mon *-*-* 00:00:00".data),
   ("yearly".data, "*-01-01 00:00:00".data),
   ("annually".data, "*-01-01 00:00:00".data),
   ("quarterly".data, "*-01,04,07,10-01 00:00:00".data),
   ("semiannually".data, "*-01,07-01 00:00:00".data)]

/-- `expression.lower() in SPECIALS` lookup. -/
def lookupSpecial (e : List Char) : Option (List Char) :=
  (SPECIALS.find? (fun p => p.1 == e)).map (·.2)

/-- Python `s.split()`: split on whitespace runs, discarding empty groups. -/
def pySplitWS (l : List Char) : List (List Char) :=
  let r := splitByAux (fun c => c.isWhitespace) l
  (r.1 :: r.2).filter (fun g => ¬ g.isEmpty)

def digitStarChars : List Char := digitChars ++ ['*']

/-- The seven field sets of a parsed expression. -/
structure SpecSets where
  weekdays : Finset ℤ
  years : Finset ℤ
  months : Finset ℤ
  days : Finset ℤ
  hours : Finset ℤ
  minutes : Finset ℤ
  seconds : Finset ℤ
deriving DecidableEq

/-- The expression-decomposition part of `BaseIterator.__init__`: alias
expansion, `~` normalization, whitespace split, then time / date / weekday
sub-field extraction with defaults. -/
def decompose (expression : List Char) : Except Err SpecSets := do
  let expr1 :=
    match lookupSpecial (expression.map Char.toLower) with
    | some canned => canned
    | none => expression
  let parts0 := pySplitWS (replaceChar '~' ('-' :: '~' :: []) expr1)
  match parts0.getLast? with
  | none => Except.error Err.wrongNumberOfFields
  | some lastP => do
    let (partsT, hms) ←
      if lastP.contains ':' then
        match splitChar ':' lastP with
        | [hp, mp] => do
          let hs ← Field.hour.parse hp
          let ms ← Field.minute.parse mp
          let ss ← Field.second.parse ('0' :: [])
          pure (parts0.dropLast, (hs, ms, ss))
        | [hp, mp, sp] => do
          let hs ← Field.hour.parse hp
          let ms ← Field.minute.parse mp
          let ss ← Field.second.parse sp
          pure (parts0.dropLast, (hs, ms, ss))
        | _ => Except.error Err.badTime
      else pure (parts0, (({0} : Finset ℤ), ({0} : Finset ℤ), ({0} : Finset ℤ)))
    let (partsD, ymd) ←
      match partsT.getLast? with
      | some dp =>
        if dp.contains '-' ∧ dp.head?.elim false (fun c => digitStarChars.contains c) then
          match splitChar '-' dp with
          | [mp, dpp] => do
            let ys ← Field.year.parse ('*' :: [])
            let ms ← Field.month.parse mp
            let ds ← Field.day.parse dpp
            pure (partsT.dropLast, (ys, ms, ds))
          | [yp, mp, dpp] => do
            let ys ← Field.year.parse yp
            let ms ← Field.month.parse mp
            let ds ← Field.day.parse dpp
            pure (partsT.dropLast, (ys, ms, ds))
          | _ => Except.error Err.badDate
        else pure (partsT, (rangeSet .year, rangeSet .month, rangeSet .day))
      | none => pure (partsT, (rangeSet .year, rangeSet .month, rangeSet .day))
    let (rest, wds) ←
      match partsD with
      | w :: restParts => do
        let s ← Field.dow.parse w
        pure (restParts, s)
      | [] => pure (([] : List (List Char)), rangeSet .dow)
    if rest.isEmpty then
      pure (SpecSets.mk wds ymd.1 ymd.2.1 ymd.2.2 hms.1 hms.2.1 hms.2.2)
    else Except.error Err.wrongNumberOfFields

/-- `BaseIterator.__init__`: cursor truncation, expression decomposition, and
DST-fixup setup (`tzinfo in (None, UTC)` means no fixup). -/
def mkIter (expression : List Char) (start : DT) (startTz : TzInfo) :
    Except Err IterState := do
  let sets ← decompose expression
  pure {
    weekdays := sets.weekdays, years := sets.years, months := sets.months,
    days := sets.days, hours := sets.hours, minutes := sets.minutes,
    seconds := sets.seconds,
    fixupTz :=
      match startTz with
      | .naive => none
      | .utc => none
      | .zone z => some z,
    anyReverseDay := decide (∃ d ∈ sets.days, d < 0),
    dt := truncMicro start }

theorem addHour_valid {t : DT} (h : t.Valid) : t.addHour.Valid := by
  obtain ⟨hd, hh, hm, hs, hu⟩ := h
  unfold DT.addHour
  split_ifs with c1
  · exact ⟨hd, by show t.hour + 1 < 24; omega, hm, hs, hu⟩
  · refine ⟨?_, by show (0 : ℕ) < 24; norm_num, hm, hs, hu⟩
    have := succDay_valid hd
    simpa [DT.date] using this

theorem toMicros_addHour {t : DT} (h : t.Valid) :
    t.addHour.toMicros = t.toMicros + 3600000000 := by
  obtain ⟨hd, hh, hm, hs, hu⟩ := h
  unfold DT.addHour DT.toMicros
  split_ifs with c1
  · show ((((t.date.toRD * 24 + (t.hour + 1)) * 60 + t.minute) * 60 + t.second)) * 1000000
      + t.micro = _
    ring
  · have hrd : (succDay t.date).toRD = t.date.toRD + 1 := toRD_succDay hd
    have e : (DT.mk (succDay t.date).year (succDay t.date).month (succDay t.date).day
        0 t.minute t.second t.micro).date = succDay t.date := rfl
    show (((((DT.mk (succDay t.date).year (succDay t.date).month (succDay t.date).day
        0 t.minute t.second t.micro).date.toRD * 24 + 0) * 60 + t.minute) * 60 + t.second))
      * 1000000 + t.micro = _
    rw [e, hrd]
    have h1 : t.hour = 23 := by omega
    rw [h1]; ring

theorem toMicros_toSecs (t : DT) : t.toMicros = t.toSecs * 1000000 + t.micro := rfl

theorem micro_addSecond (t : DT) : t.addSecond.micro = t.micro := by
  unfold DT.addSecond
  split_ifs <;> rfl

theorem micro_addMinute (t : DT) : t.addMinute.micro = t.micro := by
  unfold DT.addMinute
  split_ifs <;> rfl

theorem micro_addHour (t : DT) : t.addHour.micro = t.micro := by
  unfold DT.addHour
  split_ifs <;> rfl

theorem toSecs_addSecond {t : DT} (h : t.Valid) : t.addSecond.toSecs = t.toSecs + 1 := by
  have h1 := toMicros_addSecond h
  have h2 := micro_addSecond t
  have e1 := toMicros_toSecs t.addSecond
  have e2 := toMicros_toSecs t
  omega

theorem toSecs_addMinute {t : DT} (h : t.Valid) : t.addMinute.toSecs = t.toSecs + 60 := by
  have h1 := toMicros_addMinute h
  have h2 := micro_addMinute t
  have e1 := toMicros_toSecs t.addMinute
  have e2 := toMicros_toSecs t
  omega

theorem toSecs_addHour {t : DT} (h : t.Valid) : t.addHour.toSecs = t.toSecs + 3600 := by
  have h1 := toMicros_addHour h
  have h2 := micro_addHour t
  have e1 := toMicros_toSecs t.addHour
  have e2 := toMicros_toSecs t
  omega

theorem second_addSecond {t : DT} (h : t.Valid) :
    t.addSecond.second = (t.second + 1) % 60 := by
  obtain ⟨hd, hh, hm, hs, hu⟩ := h
  unfold DT.addSecond
  split_ifs with c1 c2 c3
  · show t.second + 1 = _
    omega
  · show (0 : ℕ) = _
    omega
  · show (0 : ℕ) = _
    omega
  · show (0 : ℕ) = _
    omega

theorem addSeconds_spec {t : DT} (h : t.Valid) (n : ℕ) :
    (addSeconds n t).Valid ∧ (addSeconds n t).toSecs = t.toSecs + n ∧
      (addSeconds n t).micro = t.micro ∧
      (addSeconds n t).second = (t.second + n) % 60 := by
  have hs : t.second < 60 := h.2.2.2.1
  induction n with
  | zero =>
    refine ⟨h, by simp [addSeconds], by simp [addSeconds], ?_⟩
    show t.second = (t.second + 0) % 60
    omega
  | succ k ih =>
    obtain ⟨iv, is, im, isec⟩ := ih
    have e : addSeconds (k + 1) t = (addSeconds k t).addSecond := by
      unfold addSeconds
      rw [Function.iterate_succ_apply']
    refine ⟨e ▸ addSecond_valid iv, ?_, ?_, ?_⟩
    · rw [e, toSecs_addSecond iv]; omega
    · rw [e, micro_addSecond]; omega
    · rw [e, second_addSecond iv, isec]; omega

theorem secLoop_spec (sec : Finset ℤ) :
    ∀ (fuel : ℕ) {t : DT}, t.Valid →
      (secLoop sec fuel t).Valid ∧ t.toSecs ≤ (secLoop sec fuel t).toSecs ∧
        (secLoop sec fuel t).micro = t.micro ∧
        ((t.second : ℤ) ∉ sec → 1 ≤ fuel → t.toSecs + 1 ≤ (secLoop sec fuel t).toSecs) ∧
        (secLoop sec fuel t).toSecs ≤ t.toSecs + fuel := by
  intro fuel
  induction fuel with
  | zero =>
    intro t h
    rw [show secLoop sec 0 t = t from rfl]
    exact ⟨h, le_refl _, rfl, fun _ hf => absurd hf (by norm_num), by omega⟩
  | succ k ih =>
    intro t h
    have he : secLoop sec (k + 1) t =
        if (t.second : ℤ) ∈ sec then t
        else if t.addSecond.second = 0 then t.addSecond
        else secLoop sec k t.addSecond := rfl
    rw [he]
    split_ifs with hin hz
    · exact ⟨h, le_refl _, rfl, fun hni _ => absurd hin hni, by omega⟩
    · have hv2 : t.addSecond.Valid := addSecond_valid h
      have hs2 : t.addSecond.toSecs = t.toSecs + 1 := toSecs_addSecond h
      exact ⟨hv2, by omega, micro_addSecond t, fun _ _ => by omega, by omega⟩
    · have hv2 : t.addSecond.Valid := addSecond_valid h
      have hs2 : t.addSecond.toSecs = t.toSecs + 1 := toSecs_addSecond h
      have hm2 : t.addSecond.micro = t.micro := micro_addSecond t
      obtain ⟨v', le', m', _, ub'⟩ := ih hv2
      exact ⟨v', by omega, by omega, fun _ _ => by omega, by omega⟩

theorem advance_second_false {sec : Finset ℤ} {t : DT}
    (hc : (advance_second sec t).1 = false) : (advance_second sec t).2 = t := by
  unfold advance_second at hc ⊢
  split_ifs at hc ⊢ with hin hcard
  · rfl

theorem advance_second_true {sec : Finset ℤ} {t : DT} (h : t.Valid)
    (hc : (advance_second sec t).1 = true) :
    (advance_second sec t).2.Valid ∧
      t.toSecs + 1 ≤ (advance_second sec t).2.toSecs ∧
      (advance_second sec t).2.micro = t.micro ∧
      (advance_second sec t).2.toSecs ≤ t.toSecs + 120 := by
  unfold advance_second
  split_ifs with hin hcard
  · exfalso
    have : advance_second sec t = (false, t) := by
      unfold advance_second
      rw [if_pos hin]
    rw [this] at hc
    simp at hc
  · set δ := (((sec.sort (· ≤ ·)).headI - (t.second : ℤ)) % 60).toNat with hδ
    have hδlt : δ < 60 := by
      have h1 := Int.emod_lt_of_pos ((sec.sort (· ≤ ·)).headI - (t.second : ℤ))
        (by norm_num : (0 : ℤ) < 60)
      have h2 := Int.emod_nonneg ((sec.sort (· ≤ ·)).headI - (t.second : ℤ))
        (by norm_num : (60 : ℤ) ≠ 0)
      omega
    obtain ⟨jv, js, jm, jsec⟩ := addSeconds_spec h δ
    obtain ⟨lv, lle, lm, lstrict, lub⟩ := secLoop_spec sec 60 jv
    refine ⟨lv, ?_, ?_, ?_⟩
    · show t.toSecs + 1 ≤ (secLoop sec 60 (addSeconds δ t)).toSecs
      rcases Nat.eq_zero_or_pos δ with hδ0 | hδpos
      · have hz : addSeconds 0 t = t := rfl
        rw [hδ0, hz]
        rw [hδ0, hz] at lstrict
        exact lstrict hin (by norm_num)
      · omega
    · show (secLoop sec 60 (addSeconds δ t)).micro = t.micro
      omega
    · show (secLoop sec 60 (addSeconds δ t)).toSecs ≤ t.toSecs + 120
      omega
  · obtain ⟨lv, lle, lm, lstrict, lub⟩ := secLoop_spec sec 60 h
    refine ⟨lv, ?_, ?_, ?_⟩
    · show t.toSecs + 1 ≤ (secLoop sec 60 t).toSecs
      exact lstrict hin (by norm_num)
    · show (secLoop sec 60 t).micro = t.micro
      omega
    · show (secLoop sec 60 t).toSecs ≤ t.toSecs + 120
      omega

theorem minLoop_spec (mins : Finset ℤ) :
    ∀ (fuel : ℕ) {t : DT}, t.Valid →
      (minLoop mins fuel t).Valid ∧ t.toSecs ≤ (minLoop mins fuel t).toSecs ∧
        (minLoop mins fuel t).micro = t.micro ∧
        ((t.minute : ℤ) ∉ mins → 1 ≤ fuel → t.toSecs + 60 ≤ (minLoop mins fuel t).toSecs) ∧
        (minLoop mins fuel t).toSecs ≤ t.toSecs + 60 * fuel := by
  intro fuel
  induction fuel with
  | zero =>
    intro t h
    rw [show minLoop mins 0 t = t from rfl]
    exact ⟨h, le_refl _, rfl, fun _ hf => absurd hf (by norm_num), by omega⟩
  | succ k ih =>
    intro t h
    have he : minLoop mins (k + 1) t =
        if (t.minute : ℤ) ∈ mins then t
        else if t.addMinute.minute = 0 then t.addMinute
        else minLoop mins k t.addMinute := rfl
    rw [he]
    split_ifs with hin hz
    · exact ⟨h, le_refl _, rfl, fun hni _ => absurd hin hni, by omega⟩
    · have hv2 : t.addMinute.Valid := addMinute_valid h
      have hs2 : t.addMinute.toSecs = t.toSecs + 60 := toSecs_addMinute h
      exact ⟨hv2, by omega, micro_addMinute t, fun _ _ => by omega, by omega⟩
    · have hv2 : t.addMinute.Valid := addMinute_valid h
      have hs2 : t.addMinute.toSecs = t.toSecs + 60 := toSecs_addMinute h
      have hm2 : t.addMinute.micro = t.micro := micro_addMinute t
      obtain ⟨v', le', m', _, ub'⟩ := ih hv2
      exact ⟨v', by omega, by omega, fun _ _ => by omega, by omega⟩

theorem floorSec_valid {t : DT} (h : t.Valid) : ({ t with second := 0 } : DT).Valid :=
  ⟨h.1, h.2.1, h.2.2.1, by norm_num, h.2.2.2.2⟩

theorem floorSec_toSecs (t : DT) :
    ({ t with second := 0 } : DT).toSecs + t.second = t.toSecs := by
  show ((t.date.toRD * 24 + t.hour) * 60 + t.minute) * 60 + 0 + t.second = _
  rfl

theorem advance_minute_false {mins : Finset ℤ} {t : DT}
    (hc : (advance_minute mins t).1 = false) : (advance_minute mins t).2 = t := by
  unfold advance_minute at hc ⊢
  split_ifs at hc ⊢ with hin
  · rfl

theorem advance_minute_true {mins : Finset ℤ} {t : DT} (h : t.Valid)
    (hc : (advance_minute mins t).1 = true) :
    (advance_minute mins t).2.Valid ∧
      t.toSecs + 1 ≤ (advance_minute mins t).2.toSecs ∧
      (advance_minute mins t).2.micro = t.micro ∧
      (advance_minute mins t).2.toSecs ≤ t.toSecs + 3600 := by
  have hsec : t.second < 60 := h.2.2.2.1
  unfold advance_minute
  split_ifs with hin
  · exfalso
    have : advance_minute mins t = (false, t) := by
      unfold advance_minute
      rw [if_pos hin]
    rw [this] at hc
    simp at hc
  · have hfv : ({ t with second := 0 } : DT).Valid := floorSec_valid h
    have hfs := floorSec_toSecs t
    obtain ⟨lv, lle, lm, lstrict, lub⟩ := minLoop_spec mins 60 hfv
    have hfm : ({ t with second := 0 } : DT).minute = t.minute := rfl
    rw [hfm] at lstrict
    refine ⟨lv, ?_, ?_, ?_⟩
    · show t.toSecs + 1 ≤ (minLoop mins 60 { t with second := 0 }).toSecs
      have := lstrict hin (by norm_num)
      omega
    · show (minLoop mins 60 { t with second := 0 }).micro = t.micro
      have : ({ t with second := 0 } : DT).micro = t.micro := rfl
      omega
    · show (minLoop mins 60 { t with second := 0 }).toSecs ≤ t.toSecs + 3600
      omega

theorem hourLoop_spec (hrs : Finset ℤ) :
    ∀ (fuel : ℕ) {t : DT}, t.Valid →
      (hourLoop hrs fuel t).Valid ∧ t.toSecs ≤ (hourLoop hrs fuel t).toSecs ∧
        (hourLoop hrs fuel t).micro = t.micro ∧
        ((t.hour : ℤ) ∉ hrs → 1 ≤ fuel → t.toSecs + 3600 ≤ (hourLoop hrs fuel t).toSecs) ∧
        (hourLoop hrs fuel t).toSecs ≤ t.toSecs + 3600 * fuel := by
  intro fuel
  induction fuel with
  | zero =>
    intro t h
    rw [show hourLoop hrs 0 t = t from rfl]
    exact ⟨h, le_refl _, rfl, fun _ hf => absurd hf (by norm_num), by omega⟩
  | succ k ih =>
    intro t h
    have he : hourLoop hrs (k + 1) t =
        if (t.hour : ℤ) ∈ hrs then t
        else if t.addHour.hour = 0 then t.addHour
        else hourLoop hrs k t.addHour := rfl
    rw [he]
    split_ifs with hin hz
    · exact ⟨h, le_refl _, rfl, fun hni _ => absurd hin hni, by omega⟩
    · have hv2 : t.addHour.Valid := addHour_valid h
      have hs2 : t.addHour.toSecs = t.toSecs + 3600 := toSecs_addHour h
      exact ⟨hv2, by omega, micro_addHour t, fun _ _ => by omega, by omega⟩
    · have hv2 : t.addHour.Valid := addHour_valid h
      have hs2 : t.addHour.toSecs = t.toSecs + 3600 := toSecs_addHour h
      have hm2 : t.addHour.micro = t.micro := micro_addHour t
      obtain ⟨v', le', m', _, ub'⟩ := ih hv2
      exact ⟨v', by omega, by omega, fun _ _ => by omega, by omega⟩

theorem floorMin_valid {t : DT} (h : t.Valid) :
    ({ t with minute := 0, second := 0 } : DT).Valid :=
  ⟨h.1, h.2.1, by norm_num, by norm_num, h.2.2.2.2⟩

theorem floorMin_toSecs (t : DT) :
    ({ t with minute := 0, second := 0 } : DT).toSecs + t.minute * 60 + t.second =
      t.toSecs := by
  show ((t.date.toRD * 24 + t.hour) * 60 + 0) * 60 + 0 + t.minute * 60 + t.second = _
  show _ = ((t.date.toRD * 24 + t.hour) * 60 + t.minute) * 60 + t.second
  ring

theorem advance_hour_false {hrs : Finset ℤ} {t : DT}
    (hc : (advance_hour hrs t).1 = false) : (advance_hour hrs t).2 = t := by
  unfold advance_hour at hc ⊢
  split_ifs at hc ⊢ with hin
  · rfl

theorem advance_hour_true {hrs : Finset ℤ} {t : DT} (h : t.Valid)
    (hc : (advance_hour hrs t).1 = true) :
    (advance_hour hrs t).2.Valid ∧
      t.toSecs + 1 ≤ (advance_hour hrs t).2.toSecs ∧
      (advance_hour hrs t).2.micro = t.micro ∧
      (advance_hour hrs t).2.toSecs ≤ t.toSecs + 86400 := by
  have hsec : t.second < 60 := h.2.2.2.1
  have hmin : t.minute < 60 := h.2.2.1
  unfold advance_hour
  split_ifs with hin
  · exfalso
    have : advance_hour hrs t = (false, t) := by
      unfold advance_hour
      rw [if_pos hin]
    rw [this] at hc
    simp at hc
  · have hfv : ({ t with minute := 0, second := 0 } : DT).Valid := floorMin_valid h
    have hfs := floorMin_toSecs t
    obtain ⟨lv, lle, lm, lstrict, lub⟩ := hourLoop_spec hrs 24 hfv
    have hfh : ({ t with minute := 0, second := 0 } : DT).hour = t.hour := rfl
    rw [hfh] at lstrict
    refine ⟨lv, ?_, ?_, ?_⟩
    · show t.toSecs + 1 ≤ (hourLoop hrs 24 { t with minute := 0, second := 0 }).toSecs
      have := lstrict hin (by norm_num)
      omega
    · show (hourLoop hrs 24 { t with minute := 0, second := 0 }).micro = t.micro
      have : ({ t with minute := 0, second := 0 } : DT).micro = t.micro := rfl
      omega
    · show (hourLoop hrs 24 { t with minute := 0, second := 0 }).toSecs ≤ t.toSecs + 86400
      omega

theorem combine_valid {d : Date} (h : d.Valid) : (combine d).Valid :=
  ⟨h, show (0 : ℕ) < 24 by norm_num, show (0 : ℕ) < 60 by norm_num,
    show (0 : ℕ) < 60 by norm_num, show (0 : ℕ) < 1000000 by norm_num⟩

theorem combine_toSecs (d : Date) : (combine d).toSecs = d.toRD * 86400 := by
  show ((d.toRD * 24 + 0) * 60 + 0) * 60 + 0 = d.toRD * 86400
  ring

theorem combine_micro (d : Date) : (combine d).micro = 0 := rfl

theorem combine_year (d : Date) : (combine d).year = d.year := rfl

theorem toSecs_split (t : DT) :
    t.toSecs = t.date.toRD * 86400 + ((t.hour * 60 + t.minute) * 60 + t.second) := by
  show ((t.date.toRD * 24 + t.hour) * 60 + t.minute) * 60 + t.second = _
  ring

theorem dayLoop_spec (wds days : Finset ℤ) (anyRev : Bool) :
    ∀ (fuel : ℕ) {d : Date}, d.Valid →
      (dayLoop wds days anyRev fuel d).Valid ∧
        d.toRD ≤ (dayLoop wds days anyRev fuel d).toRD ∧
        (¬ (match_dow wds d ∧ match_dom days anyRev d) → 1 ≤ fuel →
          d.toRD + 1 ≤ (dayLoop wds days anyRev fuel d).toRD) ∧
        (dayLoop wds days anyRev fuel d).toRD ≤ d.toRD + fuel := by
  intro fuel
  induction fuel with
  | zero =>
    intro d h
    rw [show dayLoop wds days anyRev 0 d = d from rfl]
    exact ⟨h, le_refl _, fun _ hf => absurd hf (by norm_num), by omega⟩
  | succ k ih =>
    intro d h
    have he : dayLoop wds days anyRev (k + 1) d =
        if match_dow wds d ∧ match_dom days anyRev d then d
        else if (succDay d).day = 1 then succDay d
        else dayLoop wds days anyRev k (succDay d) := rfl
    rw [he]
    split_ifs with hin hz
    · exact ⟨h, le_refl _, fun hni _ => absurd hin hni, by omega⟩
    · have hv2 : (succDay d).Valid := succDay_valid h
      have hs2 : (succDay d).toRD = d.toRD + 1 := toRD_succDay h
      exact ⟨hv2, by omega, fun _ _ => by omega, by omega⟩
    · have hv2 : (succDay d).Valid := succDay_valid h
      have hs2 : (succDay d).toRD = d.toRD + 1 := toRD_succDay h
      obtain ⟨v', le', _, ub'⟩ := ih hv2
      exact ⟨v', by omega, fun _ _ => by omega, by omega⟩

theorem advance_day_false {wds days : Finset ℤ} {anyRev : Bool} {t : DT}
    (hc : (advance_day wds days anyRev t).1 = false) :
    (advance_day wds days anyRev t).2 = t := by
  unfold advance_day at hc ⊢
  split_ifs at hc ⊢ with hin
  · rfl

theorem advance_day_true {wds days : Finset ℤ} {anyRev : Bool} {t : DT} (h : t.Valid)
    (hc : (advance_day wds days anyRev t).1 = true) :
    (advance_day wds days anyRev t).2.Valid ∧
      t.toSecs + 1 ≤ (advance_day wds days anyRev t).2.toSecs ∧
      (advance_day wds days anyRev t).2.micro = 0 ∧
      (advance_day wds days anyRev t).2.toSecs ≤ t.toSecs + 32 * 86400 := by
  have hh : t.hour < 24 := h.2.1
  have hm : t.minute < 60 := h.2.2.1
  have hs : t.second < 60 := h.2.2.2.1
  have hsplit := toSecs_split t
  unfold advance_day
  split_ifs with hin
  · exfalso
    have : advance_day wds days anyRev t = (false, t) := by
      unfold advance_day
      rw [if_pos hin]
    rw [this] at hc
    simp at hc
  · obtain ⟨lv, lle, lstrict, lub⟩ := dayLoop_spec wds days anyRev 31 h.1
    have h1 := lstrict hin (by norm_num)
    refine ⟨combine_valid lv, ?_, ?_, ?_⟩
    · show t.toSecs + 1 ≤ (combine (dayLoop wds days anyRev 31 t.date)).toSecs
      rw [combine_toSecs]
      omega
    · show (combine (dayLoop wds days anyRev 31 t.date)).micro = 0
      exact combine_micro _
    · show (combine (dayLoop wds days anyRev 31 t.date)).toSecs ≤ t.toSecs + 32 * 86400
      rw [combine_toSecs]
      omega

theorem addDays_spec : ∀ (n : ℕ) {d : Date}, d.Valid →
    (addDays n d).Valid ∧ (addDays n d).toRD = d.toRD + n := by
  intro n
  induction n with
  | zero => intro d h; exact ⟨h, rfl⟩
  | succ k ih =>
    intro d h
    obtain ⟨iv, ird⟩ := ih h
    have e : addDays (k + 1) d = succDay (addDays k d) := by
      unfold addDays
      rw [Function.iterate_succ_apply']
    rw [e]
    exact ⟨succDay_valid iv, by rw [toRD_succDay iv]; omega⟩

theorem toRD_day_one (y m day : ℕ) (hd : 1 ≤ day) :
    (Date.mk y m day).toRD = (Date.mk y m 1).toRD + (day - 1) := by
  show 365 * (y - 1) + leapsBefore y + dbm y m + (day - 1) =
    365 * (y - 1) + leapsBefore y + dbm y m + (1 - 1) + (day - 1)
  omega

theorem toRD_le_of_dlex_or_eq {a b : Date} (ha : a.Valid) (hb : b.Valid)
    (h : dlex a b ∨ a = b) : a.toRD ≤ b.toRD := by
  rcases h with h | rfl
  · exact le_of_lt (toRD_lt_of_dlex ha hb h)
  · exact le_refl _

theorem monthFirstStep_spec {d : Date} (h : d.Valid) :
    (monthFirstStep d).Valid ∧ d.toRD + 1 ≤ (monthFirstStep d).toRD ∧
      (monthFirstStep d).toRD ≤ d.toRD + 32 := by
  obtain ⟨h1, h2, h3, h4, h5⟩ := h
  have hbase : (Date.mk d.year d.month 1).Valid :=
    ⟨h1, h2, h3, le_refl 1, daysInMonth_pos _ _⟩
  obtain ⟨fv, frd⟩ := addDays_spec 32 hbase
  unfold monthFirstStep
  set f := addDays 32 (Date.mk d.year d.month 1) with hf
  clear_value f
  have hFv : (Date.mk f.year f.month 1).Valid :=
    ⟨fv.1, fv.2.1, fv.2.2.1, le_refl 1, daysInMonth_pos _ _⟩
  have hfday : 1 ≤ f.day ∧ f.day ≤ daysInMonth f.year f.month := ⟨fv.2.2.2.1, fv.2.2.2.2⟩
  have hfdim : daysInMonth f.year f.month ≤ 31 := daysInMonth_le _ _
  have hfeta : f = Date.mk f.year f.month f.day := rfl
  have hfsplit : f.toRD = (Date.mk f.year f.month 1).toRD + (f.day - 1) := by
    rw [hfeta]
    exact toRD_day_one f.year f.month f.day hfday.1
  have hdsplit : d.toRD = (Date.mk d.year d.month 1).toRD + (d.day - 1) := by
    rw [show d = Date.mk d.year d.month d.day from rfl]
    exact toRD_day_one d.year d.month d.day h4
  have hlt : d.toRD < (Date.mk f.year f.month 1).toRD := by
    rcases Nat.lt_trichotomy d.year f.year with hy | hy | hy
    · exact toRD_lt_of_dlex ⟨h1, h2, h3, h4, h5⟩ hFv (Or.inl hy)
    · rcases Nat.lt_trichotomy d.month f.month with hm | hm | hm
      · exact toRD_lt_of_dlex ⟨h1, h2, h3, h4, h5⟩ hFv (Or.inr ⟨hy, Or.inl hm⟩)
      · exfalso
        have heq : (Date.mk f.year f.month 1) = Date.mk d.year d.month 1 := by
          rw [hy, hm]
        rw [heq] at hfsplit
        omega
      · exfalso
        have hle : (Date.mk f.year f.month 1).toRD ≤ (Date.mk d.year d.month 1).toRD :=
          toRD_le_of_dlex_or_eq hFv hbase (Or.inl (Or.inr ⟨hy.symm ▸ rfl, Or.inl hm⟩))
        omega
    · exfalso
      have hle : (Date.mk f.year f.month 1).toRD ≤ (Date.mk d.year d.month 1).toRD :=
        toRD_le_of_dlex_or_eq hFv hbase (Or.inl (Or.inl hy))
      omega
  exact ⟨hFv, by omega, by omega⟩

theorem monthLoop_spec (months : Finset ℤ) :
    ∀ (fuel : ℕ) {d : Date}, d.Valid →
      (monthLoop months fuel d).Valid ∧ d.toRD ≤ (monthLoop months fuel d).toRD ∧
        ((d.month : ℤ) ∉ months → 1 ≤ fuel →
          d.toRD + 1 ≤ (monthLoop months fuel d).toRD) ∧
        (monthLoop months fuel d).toRD ≤ d.toRD + 32 * fuel := by
  intro fuel
  induction fuel with
  | zero =>
    intro d h
    rw [show monthLoop months 0 d = d from rfl]
    exact ⟨h, le_refl _, fun _ hf => absurd hf (by norm_num), by omega⟩
  | succ k ih =>
    intro d h
    have he : monthLoop months (k + 1) d =
        if (d.month : ℤ) ∈ months then d
        else monthLoop months k (monthFirstStep d) := rfl
    rw [he]
    split_ifs with hin
    · exact ⟨h, le_refl _, fun hni _ => absurd hin hni, by omega⟩
    · obtain ⟨sv, slb, sub⟩ := monthFirstStep_spec h
      obtain ⟨v', le', _, ub'⟩ := ih sv
      exact ⟨v', by omega, fun _ _ => by omega, by omega⟩

theorem advance_month_false {months : Finset ℤ} {t : DT}
    (hc : (advance_month months t).1 = false) : (advance_month months t).2 = t := by
  unfold advance_month at hc ⊢
  split_ifs at hc ⊢ with hin
  · rfl

theorem advance_month_true {months : Finset ℤ} {t : DT} (h : t.Valid)
    (hc : (advance_month months t).1 = true) :
    (advance_month months t).2.Valid ∧
      t.toSecs + 1 ≤ (advance_month months t).2.toSecs ∧
      (advance_month months t).2.micro = 0 ∧
      (advance_month months t).2.toSecs ≤ t.toSecs + 400 * 86400 := by
  have hh : t.hour < 24 := h.2.1
  have hm : t.minute < 60 := h.2.2.1
  have hs : t.second < 60 := h.2.2.2.1
  have hsplit := toSecs_split t
  unfold advance_month
  split_ifs with hin
  · exfalso
    have : advance_month months t = (false, t) := by
      unfold advance_month
      rw [if_pos hin]
    rw [this] at hc
    simp at hc
  · have hdm : t.date.month = t.month := rfl
    obtain ⟨lv, lle, lstrict, lub⟩ := monthLoop_spec months 12 h.1
    rw [hdm] at lstrict
    have h1 := lstrict hin (by norm_num)
    refine ⟨combine_valid lv, ?_, ?_, ?_⟩
    · show t.toSecs + 1 ≤ (combine (monthLoop months 12 t.date)).toSecs
      rw [combine_toSecs]
      omega
    · show (combine (monthLoop months 12 t.date)).micro = 0
      exact combine_micro _
    · show (combine (monthLoop months 12 t.date)).toSecs ≤ t.toSecs + 400 * 86400
      rw [combine_toSecs]
      omega

theorem yearLoop_spec (years : Finset ℤ) :
    ∀ (fuel : ℕ) {d : Date}, d.Valid → MAX_YEAR ≤ d.year + fuel →
      (yearLoop years fuel d).Valid ∧
        (((yearLoop years fuel d).year : ℤ) ∈ years ∨
          MAX_YEAR ≤ (yearLoop years fuel d).year) ∧
        (yearLoop years fuel d = d ∨
          (d.year < (yearLoop years fuel d).year ∧
            d.toRD < (yearLoop years fuel d).toRD)) := by
  intro fuel
  induction fuel with
  | zero =>
    intro d h hfu
    rw [show yearLoop years 0 d = d from rfl]
    exact ⟨h, Or.inr (by omega), Or.inl rfl⟩
  | succ k ih =>
    intro d h hfu
    have he : yearLoop years (k + 1) d =
        if ((d.year : ℤ) ∈ years ∨ MAX_YEAR ≤ d.year) then d
        else yearLoop years k (Date.mk (d.year + 1) 1 1) := rfl
    rw [he]
    split_ifs with hin
    · exact ⟨h, hin, Or.inl rfl⟩
    · have hy1 : 1 ≤ d.year := h.1
      have hv2 : (Date.mk (d.year + 1) 1 1).Valid :=
        ⟨show 1 ≤ d.year + 1 by omega, le_refl 1, show (1 : ℕ) ≤ 12 by norm_num,
          le_refl 1, show 1 ≤ daysInMonth (d.year + 1) 1 from daysInMonth_pos _ _⟩
      obtain ⟨v', p2, p3⟩ := ih hv2 (by show MAX_YEAR ≤ d.year + 1 + k; omega)
      have hproj : (Date.mk (d.year + 1) 1 1).year = d.year + 1 := rfl
      have hnext := toRD_lt_next_year h
      refine ⟨v', p2, Or.inr ?_⟩
      rcases p3 with heq | ⟨hylt, hrdlt⟩
      · rw [heq, hproj]
        exact ⟨by omega, hnext⟩
      · rw [hproj] at hylt
        exact ⟨by omega, by omega⟩

theorem advance_year_cases {years : Finset ℤ} {t : DT} (h : t.Valid) :
    advance_year years t = t ∨
      ((advance_year years t).Valid ∧ (advance_year years t).micro = 0 ∧
        (MAX_YEAR ≤ (advance_year years t).year ∨
          t.toSecs + 1 ≤ (advance_year years t).toSecs)) := by
  unfold advance_year
  split_ifs with hin
  · exact Or.inl rfl
  · right
    have hge1 : 1 ≤ t.date.year := h.1.1
    obtain ⟨lv, lp2, lp3⟩ := yearLoop_spec years MAX_YEAR h.1 (by omega)
    refine ⟨combine_valid lv, combine_micro _, ?_⟩
    rcases lp3 with heq | ⟨hylt, hrdlt⟩
    · left
      rw [combine_year, heq]
      rcases lp2 with hy | hy
      · rw [heq] at hy
        exact absurd hy hin
      · rw [heq] at hy
        exact hy
    · right
      rw [combine_toSecs]
      have hsplit := toSecs_split t
      have hh : t.hour < 24 := h.2.1
      have hm : t.minute < 60 := h.2.2.1
      have hs : t.second < 60 := h.2.2.2.1
      omega

/-- The state invariant preserved by iteration: the cursor is a valid datetime
at whole-second resolution. -/
def Inv (st : IterState) : Prop := st.dt.Valid ∧ st.dt.micro = 0

instance (st : IterState) : Decidable (Inv st) := by unfold Inv; infer_instance

theorem advance_year_valid {years : Finset ℤ} {t : DT} (h : t.Valid) (hm : t.micro = 0) :
    (advance_year years t).Valid ∧ (advance_year years t).micro = 0 ∧
      t.toSecs ≤ (advance_year years t).toSecs ∨
    MAX_YEAR ≤ (advance_year years t).year := by
  rcases @advance_year_cases years _ h with heq | ⟨hv, hmi, hc⟩
  · left
    rw [heq]
    exact ⟨h, hm, le_refl _⟩
  · rcases hc with hy | hlt
    · exact Or.inr hy
    · exact Or.inl ⟨hv, hmi, by omega⟩

theorem opt_elim_none {α β : Type _} (b : β) (f : α → β) :
    (Option.elim (none : Option α) b f) = b := rfl

theorem opt_elim_some {α β : Type _} (a : α) (b : β) (f : α → β) :
    (Option.elim (some a) b f) = f a := rfl

theorem loopF_value :
    ∀ (fuel : ℕ) {st : IterState} {r : DT} {st' : IterState}, Inv st →
      loopF fuel st = .value r st' →
      st' = { st with dt := r } ∧ r.Valid ∧ r.micro = 0 ∧ st.dt.toSecs ≤ r.toSecs := by
  intro fuel
  induction fuel with
  | zero =>
    intro st r st' hI h
    rw [show loopF 0 st = .timeout from rfl] at h
    exact PullResult.noConfusion h
  | succ k ih =>
    intro st r st' hI h
    simp only [loopF] at h
    set dt1 := advance_year st.years st.dt with hdt1
    by_cases hstop : MAX_YEAR ≤ dt1.year
    case pos =>
      rw [if_pos hstop] at h
      exact PullResult.noConfusion h
    rw [if_neg hstop] at h
    have hv1 : dt1.Valid ∧ dt1.micro = 0 ∧ st.dt.toSecs ≤ dt1.toSecs := by
      rcases @advance_year_valid st.years _ hI.1 hI.2 with hgood | hbad
      · exact hgood
      · rw [← hdt1] at hbad
        exact absurd hbad hstop
    by_cases hmo : (advance_month st.months dt1).1 = true
    case pos =>
      rw [if_pos hmo] at h
      obtain ⟨ha, hb, hc, hd⟩ := @ih { st with dt := (advance_month st.months dt1).2 } _ _
        ⟨(advance_month_true hv1.1 hmo).1, (advance_month_true hv1.1 hmo).2.2.1⟩ h
      have h1 := (advance_month_true hv1.1 hmo).2.1
      have h4 : ({ st with dt := (advance_month st.months dt1).2 } : IterState).dt.toSecs =
        (advance_month st.months dt1).2.toSecs := rfl
      refine ⟨?_, hb, hc, by omega⟩
      rw [ha]
    rw [if_neg hmo] at h
    by_cases hda : (advance_day st.weekdays st.days st.anyReverseDay dt1).1 = true
    case pos =>
      rw [if_pos hda] at h
      obtain ⟨ha, hb, hc, hd⟩ :=
        @ih { st with dt := (advance_day st.weekdays st.days st.anyReverseDay dt1).2 } _ _
        ⟨(advance_day_true hv1.1 hda).1, (advance_day_true hv1.1 hda).2.2.1⟩ h
      have h1 := (advance_day_true hv1.1 hda).2.1
      have h4 : ({ st with dt := (advance_day st.weekdays st.days st.anyReverseDay dt1).2 } : IterState).dt.toSecs =
        (advance_day st.weekdays st.days st.anyReverseDay dt1).2.toSecs := rfl
      refine ⟨?_, hb, hc, by omega⟩
      rw [ha]
    rw [if_neg hda] at h
    by_cases hho : (advance_hour st.hours dt1).1 = true
    case pos =>
      rw [if_pos hho] at h
      obtain ⟨ha, hb, hc, hd⟩ := @ih { st with dt := (advance_hour st.hours dt1).2 } _ _
        ⟨(advance_hour_true hv1.1 hho).1, by
          have h3 := (advance_hour_true hv1.1 hho).2.2.1
          have h2 := hv1.2.1
          show ({ st with dt := (advance_hour st.hours dt1).2 } : IterState).dt.micro = 0
          show (advance_hour st.hours dt1).2.micro = 0
          omega⟩ h
      have h1 := (advance_hour_true hv1.1 hho).2.1
      have h4 : ({ st with dt := (advance_hour st.hours dt1).2 } : IterState).dt.toSecs =
        (advance_hour st.hours dt1).2.toSecs := rfl
      refine ⟨?_, hb, hc, by omega⟩
      rw [ha]
    rw [if_neg hho] at h
    by_cases hmi : (advance_minute st.minutes dt1).1 = true
    case pos =>
      rw [if_pos hmi] at h
      obtain ⟨ha, hb, hc, hd⟩ := @ih { st with dt := (advance_minute st.minutes dt1).2 } _ _
        ⟨(advance_minute_true hv1.1 hmi).1, by
          have h3 := (advance_minute_true hv1.1 hmi).2.2.1
          have h2 := hv1.2.1
          show ({ st with dt := (advance_minute st.minutes dt1).2 } : IterState).dt.micro = 0
          show (advance_minute st.minutes dt1).2.micro = 0
          omega⟩ h
      have h1 := (advance_minute_true hv1.1 hmi).2.1
      have h4 : ({ st with dt := (advance_minute st.minutes dt1).2 } : IterState).dt.toSecs =
        (advance_minute st.minutes dt1).2.toSecs := rfl
      refine ⟨?_, hb, hc, by omega⟩
      rw [ha]
    rw [if_neg hmi] at h
    by_cases hse : (advance_second st.seconds dt1).1 = true
    case pos =>
      rw [if_pos hse] at h
      obtain ⟨ha, hb, hc, hd⟩ := @ih { st with dt := (advance_second st.seconds dt1).2 } _ _
        ⟨(advance_second_true hv1.1 hse).1, by
          have h3 := (advance_second_true hv1.1 hse).2.2.1
          have h2 := hv1.2.1
          show ({ st with dt := (advance_second st.seconds dt1).2 } : IterState).dt.micro = 0
          show (advance_second st.seconds dt1).2.micro = 0
          omega⟩ h
      have h1 := (advance_second_true hv1.1 hse).2.1
      have h4 : ({ st with dt := (advance_second st.seconds dt1).2 } : IterState).dt.toSecs =
        (advance_second st.seconds dt1).2.toSecs := rfl
      refine ⟨?_, hb, hc, by omega⟩
      rw [ha]
    rw [if_neg hse] at h
    rcases hfx : st.fixupTz with _ | z
    · rw [hfx, opt_elim_none] at h
      injection h with h1 h2
      subst h1
      refine ⟨?_, hv1.1, hv1.2.1, hv1.2.2⟩
      rw [← h2]
    · rw [hfx, opt_elim_some] at h
      split_ifs at h with him
      · have hInv2 : Inv
            { weekdays := st.weekdays, years := st.years, months := st.months,
              days := st.days, hours := st.hours, minutes := st.minutes,
              seconds := st.seconds, fixupTz := some z,
              anyReverseDay := st.anyReverseDay, dt := dt1.addSecond } := by
          constructor
          · show dt1.addSecond.Valid
            exact addSecond_valid hv1.1
          · show dt1.addSecond.micro = 0
            have h5 := micro_addSecond dt1
            have h2 := hv1.2.1
            omega
        obtain ⟨ha, hb, hc, hd⟩ := ih hInv2 h
        have h1 : dt1.addSecond.toSecs = dt1.toSecs + 1 := toSecs_addSecond hv1.1
        have h4 : (IterState.mk st.weekdays st.years st.months st.days st.hours st.minutes
            st.seconds (some z) st.anyReverseDay dt1.addSecond).dt.toSecs =
            dt1.addSecond.toSecs := rfl
        refine ⟨?_, hb, hc, by omega⟩
        rw [ha]
      · injection h with h1 h2
        subst h1
        refine ⟨?_, hv1.1, hv1.2.1, hv1.2.2⟩
        rw [← h2]

/-- All states reachable while the cascade loop keeps going stay below this
many seconds (year 2214 is comfortably past the 2200 horizon plus the largest
single-step overshoot). -/
def MSecs : ℕ := (Date.mk 2214 1 1).toRD * 86400

theorem toSecs_lt_of_year_lt {t : DT} (h : t.Valid) {Y : ℕ} (hy : t.year < Y) :
    t.toSecs < (Date.mk Y 1 1).toRD * 86400 := by
  have hh : t.hour < 24 := h.2.1
  have hm : t.minute < 60 := h.2.2.1
  have hs : t.second < 60 := h.2.2.2.1
  have hsplit := toSecs_split t
  have hYv : (Date.mk Y 1 1).Valid :=
    ⟨show 1 ≤ Y by omega, le_refl 1, show (1 : ℕ) ≤ 12 by norm_num, le_refl 1,
      show 1 ≤ daysInMonth Y 1 from daysInMonth_pos _ _⟩
  have hrd : t.date.toRD < (Date.mk Y 1 1).toRD :=
    toRD_lt_of_dlex h.1 hYv (Or.inl hy)
  omega

theorem rd_2200_2214 : (Date.mk 2200 1 1).toRD + 401 ≤ (Date.mk 2214 1 1).toRD := by
  decide

theorem loopF_no_timeout :
    ∀ (fuel : ℕ) (st : IterState), Inv st → MSecs + 1 ≤ st.dt.toSecs + fuel →
      1 ≤ fuel → loopF fuel st ≠ .timeout := by
  intro fuel
  induction fuel with
  | zero => intro st _ _ hf; exact absurd hf (by norm_num)
  | succ k ih =>
    intro st hI hbound _
    simp only [loopF]
    set dt1 := advance_year st.years st.dt with hdt1
    by_cases hstop : MAX_YEAR ≤ dt1.year
    case pos =>
      rw [if_pos hstop]
      exact fun hc => PullResult.noConfusion hc
    rw [if_neg hstop]
    have hv1 : dt1.Valid ∧ dt1.micro = 0 ∧ st.dt.toSecs ≤ dt1.toSecs := by
      rcases @advance_year_valid st.years _ hI.1 hI.2 with hgood | hbad
      · exact hgood
      · rw [← hdt1] at hbad
        exact absurd hbad hstop
    have hy1 : dt1.year < 2200 := by
      have : MAX_YEAR = 2200 := rfl
      omega
    have hb1 : dt1.toSecs < (Date.mk 2200 1 1).toRD * 86400 := toSecs_lt_of_year_lt hv1.1 hy1
    have hconst := rd_2200_2214
    have hM : MSecs = (Date.mk 2214 1 1).toRD * 86400 := rfl
    by_cases hmo : (advance_month st.months dt1).1 = true
    case pos =>
      rw [if_pos hmo]
      obtain ⟨xv, xlb, xmi, xub⟩ := advance_month_true hv1.1 hmo
      exact ih _ ⟨xv, xmi⟩ (by
        show MSecs + 1 ≤ (advance_month st.months dt1).2.toSecs + k
        omega) (by omega)
    rw [if_neg hmo]
    by_cases hda : (advance_day st.weekdays st.days st.anyReverseDay dt1).1 = true
    case pos =>
      rw [if_pos hda]
      obtain ⟨xv, xlb, xmi, xub⟩ := advance_day_true hv1.1 hda
      exact ih _ ⟨xv, xmi⟩ (by
        show MSecs + 1 ≤ (advance_day st.weekdays st.days st.anyReverseDay dt1).2.toSecs + k
        omega) (by omega)
    rw [if_neg hda]
    by_cases hho : (advance_hour st.hours dt1).1 = true
    case pos =>
      rw [if_pos hho]
      obtain ⟨xv, xlb, xmi, xub⟩ := advance_hour_true hv1.1 hho
      exact ih _ ⟨xv, by
        show (advance_hour st.hours dt1).2.micro = 0
        have h2 := hv1.2.1
        omega⟩ (by
        show MSecs + 1 ≤ (advance_hour st.hours dt1).2.toSecs + k
        omega) (by omega)
    rw [if_neg hho]
    by_cases hmi : (advance_minute st.minutes dt1).1 = true
    case pos =>
      rw [if_pos hmi]
      obtain ⟨xv, xlb, xmi2, xub⟩ := advance_minute_true hv1.1 hmi
      exact ih _ ⟨xv, by
        show (advance_minute st.minutes dt1).2.micro = 0
        have h2 := hv1.2.1
        omega⟩ (by
        show MSecs + 1 ≤ (advance_minute st.minutes dt1).2.toSecs + k
        omega) (by omega)
    rw [if_neg hmi]
    by_cases hse : (advance_second st.seconds dt1).1 = true
    case pos =>
      rw [if_pos hse]
      obtain ⟨xv, xlb, xmi2, xub⟩ := advance_second_true hv1.1 hse
      exact ih _ ⟨xv, by
        show (advance_second st.seconds dt1).2.micro = 0
        have h2 := hv1.2.1
        omega⟩ (by
        show MSecs + 1 ≤ (advance_second st.seconds dt1).2.toSecs + k
        omega) (by omega)
    rw [if_neg hse]
    rcases hfx : st.fixupTz with _ | z
    · rw [opt_elim_none]
      exact fun hc => PullResult.noConfusion hc
    · rw [opt_elim_some]
      split_ifs with him
      · have hs1 : dt1.addSecond.toSecs = dt1.toSecs + 1 := toSecs_addSecond hv1.1
        have hm1 := micro_addSecond dt1
        exact ih _ ⟨addSecond_valid hv1.1, by
          show dt1.addSecond.micro = 0
          have h2 := hv1.2.1
          omega⟩ (by
          show MSecs + 1 ≤ dt1.addSecond.toSecs + k
          omega) (by omega)
      · exact fun hc => PullResult.noConfusion hc

theorem Inv_addSecond {st : IterState} (hI : Inv st) :
    Inv { st with dt := st.dt.addSecond } := by
  refine ⟨addSecond_valid hI.1, ?_⟩
  show st.dt.addSecond.micro = 0
  have h1 := micro_addSecond st.dt
  have h2 := hI.2
  omega

/-- A successful pull returns a valid whole-second instant strictly after the
previous cursor position, and the new cursor is that instant. -/
theorem pullF_value {fuel : ℕ} {st : IterState} {r : DT} {st' : IterState} (hI : Inv st)
    (h : pullF fuel st = .value r st') :
    st' = { st with dt := r } ∧ r.Valid ∧ r.micro = 0 ∧ st.dt.toSecs + 1 ≤ r.toSecs := by
  unfold pullF at h
  obtain ⟨ha, hb, hc, hd⟩ := loopF_value fuel (Inv_addSecond hI) h
  have hs1 : st.dt.addSecond.toSecs = st.dt.toSecs + 1 := toSecs_addSecond hI.1
  have h4 : ({ st with dt := st.dt.addSecond } : IterState).dt.toSecs =
      st.dt.addSecond.toSecs := rfl
  refine ⟨?_, hb, hc, by omega⟩
  rw [ha]

/-- A pull with fuel `MSecs + 1` always terminates (returns an instant or the
end-of-sequence signal). -/
theorem pullF_no_timeout {st : IterState} (hI : Inv st) :
    pullF (MSecs + 1) st ≠ .timeout := by
  unfold pullF
  apply loopF_no_timeout
  · exact Inv_addSecond hI
  · show MSecs + 1 ≤ st.dt.addSecond.toSecs + (MSecs + 1)
    omega
  · norm_num

theorem year_addSecond_ge {t : DT} (h : t.Valid) : t.year ≤ t.addSecond.year := by
  unfold DT.addSecond
  split_ifs
  · exact le_refl _
  · exact le_refl _
  · exact le_refl _
  · show t.year ≤ (succDay t.date).year
    unfold succDay
    split_ifs
    · exact le_refl _
    · exact le_refl _
    · show t.year ≤ t.year + 1
      omega

/-- If the advanced year reaches `MAX_YEAR`, the pull raises `StopIteration`. -/
theorem pullF_stop_of_horizon {st : IterState} (fuel : ℕ)
    (h : MAX_YEAR ≤ (advance_year st.years st.dt.addSecond).year) :
    pullF (fuel + 1) st = .stop := by
  unfold pullF
  simp only [loopF]
  rw [if_pos h]

/-- If every allowed year is strictly before the cursor year, the very first
pull raises `StopIteration`. -/
theorem pullF_stop_of_past {st : IterState} (fuel : ℕ) (hI : Inv st)
    (h : ∀ y ∈ st.years, y < (st.dt.year : ℤ)) :
    pullF (fuel + 1) st = .stop := by
  apply pullF_stop_of_horizon
  have hv2 : st.dt.addSecond.Valid := addSecond_valid hI.1
  have hyge : st.dt.year ≤ st.dt.addSecond.year := year_addSecond_ge hI.1
  unfold advance_year
  split_ifs with hin
  · exfalso
    have := h _ hin
    have : (st.dt.addSecond.year : ℤ) < (st.dt.year : ℤ) := this
    omega
  · rw [combine_year]
    have hge1 : 1 ≤ st.dt.addSecond.date.year := hv2.1.1
    obtain ⟨lv, lp2, lp3⟩ := yearLoop_spec st.years MAX_YEAR hv2.1 (by omega)
    rcases lp2 with hy | hy
    · exfalso
      have hlt := h _ hy
      have hge : st.dt.addSecond.date.year ≤ (yearLoop st.years MAX_YEAR
          st.dt.addSecond.date).year := by
        rcases lp3 with heq | ⟨hgt, _⟩
        · rw [heq]
        · omega
      have hdy : st.dt.addSecond.date.year = st.dt.addSecond.year := rfl
      omega
    · exact hy

/-- Repeated pulls: the `n`-th pull of the iterator, tracking the evolving
state (`none` once the sequence has ended or fuel ran out). -/
def pullSeq (fuel : ℕ) (st : IterState) : ℕ → Option (DT × IterState)
  | 0 =>
    match pullF fuel st with
    | .value r st' => some (r, st')
    | _ => none
  | n + 1 =>
    match pullSeq fuel st n with
    | some (_, st1) =>
      match pullF fuel st1 with
      | .value r st' => some (r, st')
      | _ => none
    | none => none

theorem pullSeq_inv {fuel : ℕ} {st : IterState} (hI : Inv st) :
    ∀ (n : ℕ) {r : DT} {st' : IterState}, pullSeq fuel st n = some (r, st') →
      Inv st' ∧ st'.dt = r ∧ r.micro = 0 ∧ st.dt.toSecs + 1 ≤ r.toSecs := by
  intro n
  induction n with
  | zero =>
    intro r st' h
    rw [show pullSeq fuel st 0 = (match pullF fuel st with
      | .value r st' => some (r, st')
      | _ => none) from rfl] at h
    rcases hp : pullF fuel st with _ | _ | ⟨r2, st2⟩
    · simp only [hp] at h
      exact Option.noConfusion h
    · simp only [hp] at h
      exact Option.noConfusion h
    · simp only [hp] at h
      injection h with h1
      injection h1 with h2 h3
      subst h2
      subst h3
      obtain ⟨ha, hb, hc, hd⟩ := pullF_value hI hp
      refine ⟨?_, ?_, hc, hd⟩
      · rw [ha]; exact ⟨hb, hc⟩
      · rw [ha]
  | succ k ih =>
    intro r st' h
    rw [show pullSeq fuel st (k + 1) = (match pullSeq fuel st k with
      | some (_, st1) =>
        match pullF fuel st1 with
        | .value r st' => some (r, st')
        | _ => none
      | none => none) from rfl] at h
    rcases hk : pullSeq fuel st k with _ | ⟨r1, st1⟩
    · simp only [hk] at h
      exact Option.noConfusion h
    · simp only [hk] at h
      obtain ⟨ih1, ih2, ih3, ih4⟩ := ih hk
      rcases hp : pullF fuel st1 with _ | _ | ⟨r2, st2⟩
      · simp only [hp] at h
        exact Option.noConfusion h
      · simp only [hp] at h
        exact Option.noConfusion h
      · simp only [hp] at h
        injection h with h1
        injection h1 with h2 h3
        subst h2
        subst h3
        obtain ⟨ha, hb, hc, hd⟩ := pullF_value ih1 hp
        have h5 : st1.dt.toSecs = r1.toSecs := by rw [ih2]
        refine ⟨?_, ?_, hc, by omega⟩
        · rw [ha]; exact ⟨hb, hc⟩
        · rw [ha]

/-- Consecutive outputs of repeated pulls are strictly increasing. -/
theorem pullSeq_strictMono {fuel : ℕ} {st : IterState} (hI : Inv st)
    {n : ℕ} {r1 r2 : DT} {st1 st2 : IterState}
    (h1 : pullSeq fuel st n = some (r1, st1))
    (h2 : pullSeq fuel st (n + 1) = some (r2, st2)) :
    r1.toSecs < r2.toSecs ∧ r1.toMicros < r2.toMicros := by
  obtain ⟨i1, i2, i3, _⟩ := pullSeq_inv hI n h1
  rw [show pullSeq fuel st (n + 1) = (match pullSeq fuel st n with
    | some (_, st1) =>
      match pullF fuel st1 with
      | .value r st' => some (r, st')
      | _ => none
    | none => none) from rfl] at h2
  rw [h1] at h2
  rcases hp : pullF fuel st1 with _ | _ | ⟨r3, st3⟩
  · simp only [hp] at h2
    exact Option.noConfusion h2
  · simp only [hp] at h2
    exact Option.noConfusion h2
  · simp only [hp] at h2
    injection h2 with h1'
    injection h1' with h2' h3'
    subst h2'
    obtain ⟨_, _, hc, hd⟩ := pullF_value i1 hp
    have h5 : st1.dt.toSecs = r1.toSecs := by rw [i2]
    have e1 := toMicros_toSecs r1
    have e2 := toMicros_toSecs r3
    constructor
    · omega
    · omega

theorem except_bind_ok {α β : Type} {x : Except Err α} {f : α → Except Err β} {b : β}
    (h : x >>= f = .ok b) : ∃ a, x = .ok a ∧ f a = .ok b := by
  cases x with
  | error e =>
    exfalso
    have : (Except.error e >>= f : Except Err β) = .error e := rfl
    rw [this] at h
    exact Except.noConfusion h
  | ok a =>
    refine ⟨a, rfl, ?_⟩
    have : (Except.ok a >>= f : Except Err β) = f a := rfl
    rw [← this]
    exact h

theorem truncMicro_valid {t : DT} (h : t.Valid) : (truncMicro t).Valid :=
  ⟨h.1, h.2.1, h.2.2.1, h.2.2.2.1, show (0 : ℕ) < 1000000 by norm_num⟩

theorem truncMicro_toSecs (t : DT) : (truncMicro t).toSecs = t.toSecs := rfl

theorem truncMicro_micro (t : DT) : (truncMicro t).micro = 0 := rfl

/-- A successfully constructed iterator starts at the microsecond-truncated
start instant (and hence satisfies the iteration invariant for a valid start). -/
theorem mkIter_ok {e : List Char} {s : DT} {tz : TzInfo} {st : IterState}
    (h : mkIter e s tz = .ok st) :
    st.dt = truncMicro s ∧
      ∃ sets, decompose e = .ok sets ∧
        st.weekdays = sets.weekdays ∧ st.years = sets.years ∧ st.months = sets.months ∧
        st.days = sets.days ∧ st.hours = sets.hours ∧ st.minutes = sets.minutes ∧
        st.seconds = sets.seconds := by
  unfold mkIter at h
  obtain ⟨sets, hsets, h⟩ := except_bind_ok h
  injection h with h1
  rw [← h1]
  exact ⟨rfl, sets, hsets, rfl, rfl, rfl, rfl, rfl, rfl, rfl⟩

theorem mkIter_inv {e : List Char} {s : DT} {tz : TzInfo} {st : IterState}
    (hv : s.Valid) (h : mkIter e s tz = .ok st) : Inv st := by
  obtain ⟨hdt, _⟩ := mkIter_ok h
  constructor
  · rw [hdt]; exact truncMicro_valid hv
  · rw [hdt]; exact truncMicro_micro s

theorem splitOnceChar_eq {c : Char} :
    ∀ {l a b : List Char}, splitOnceChar c l = some (a, b) → l = a ++ c :: b := by
  intro l
  induction l with
  | nil => intro a b h; exact Option.noConfusion h
  | cons x t ih =>
    intro a b h
    rw [show splitOnceChar c (x :: t) =
      (if x = c then some ([], t)
       else (splitOnceChar c t).map (fun p => (x :: p.1, p.2))) from rfl] at h
    split_ifs at h with hx
    · injection h with h1
      injection h1 with h2 h3
      subst hx
      rw [← h2, ← h3]
      rfl
    · rcases hs : splitOnceChar c t with _ | ⟨a', b'⟩
      · rw [hs] at h
        exact Option.noConfusion h
      · rw [hs] at h
        injection h with h1
        injection h1 with h2 h3
        rw [← h2, ← h3]
        rw [ih hs]
        rfl

theorem splitOnceChar_append {c : Char} :
    ∀ {a : List Char} (b : List Char), c ∉ a → splitOnceChar c (a ++ c :: b) = some (a, b) := by
  intro a
  induction a with
  | nil =>
    intro b _
    show splitOnceChar c (c :: b) = _
    rw [show splitOnceChar c (c :: b) =
      (if c = c then some ([], b)
       else (splitOnceChar c b).map (fun p => (c :: p.1, p.2))) from rfl]
    rw [if_pos rfl]
  | cons x t ih =>
    intro b hna
    have hx : ¬ x = c := fun hc => hna (hc ▸ List.mem_cons_self x t)
    show splitOnceChar c (x :: (t ++ c :: b)) = _
    rw [show splitOnceChar c (x :: (t ++ c :: b)) =
      (if x = c then some ([], t ++ c :: b)
       else (splitOnceChar c (t ++ c :: b)).map (fun p => (x :: p.1, p.2))) from rfl]
    rw [if_neg hx, ih b (fun hm => hna (List.mem_cons_of_mem x hm))]
    rfl

theorem splitByAux_mem (p : Char → Bool) :
    ∀ (l : List Char),
      (∀ x ∈ (splitByAux p l).1, x ∈ l) ∧
        (∀ g ∈ (splitByAux p l).2, ∀ x ∈ g, x ∈ l) := by
  intro l
  induction l with
  | nil =>
    exact ⟨fun x hx => absurd hx (List.not_mem_nil x),
      fun g hg => absurd hg (List.not_mem_nil g)⟩
  | cons c t ih =>
    obtain ⟨ih1, ih2⟩ := ih
    rw [show splitByAux p (c :: t) =
      (if p c then ([], (splitByAux p t).1 :: (splitByAux p t).2)
       else (c :: (splitByAux p t).1, (splitByAux p t).2)) from rfl]
    split_ifs with hc
    · refine ⟨fun x hx => absurd hx (List.not_mem_nil x), fun g hg x hx => ?_⟩
      rcases List.mem_cons.mp hg with rfl | hg2
      · exact List.mem_cons_of_mem c (ih1 x hx)
      · exact List.mem_cons_of_mem c (ih2 g hg2 x hx)
    · refine ⟨fun x hx => ?_, fun g hg x hx => List.mem_cons_of_mem c (ih2 g hg x hx)⟩
      rcases List.mem_cons.mp hx with rfl | hx2
      · exact List.mem_cons_self x t
      · exact List.mem_cons_of_mem c (ih1 x hx2)

theorem splitChar_mem {c : Char} {l : List Char} {g : List Char}
    (hg : g ∈ splitChar c l) : ∀ x ∈ g, x ∈ l := by
  unfold splitChar at hg
  rcases List.mem_cons.mp hg with rfl | hg2
  · exact (splitByAux_mem (fun x => x = c) l).1
  · exact (splitByAux_mem (fun x => x = c) l).2 g hg2

theorem splitOnceDotDot_eq :
    ∀ {l a b : List Char}, splitOnceDotDot l = some (a, b) → l = a ++ '.' :: '.' :: b := by
  intro l
  induction l with
  | nil => intro a b h; exact Option.noConfusion h
  | cons x t ih =>
    intro a b h
    by_cases hx : x = '.'
    · subst hx
      rcases t with _ | ⟨y, t2⟩
      · rw [show splitOnceDotDot ('.' :: []) = none from rfl] at h
        exact Option.noConfusion h
      · by_cases hy : y = '.'
        · subst hy
          rw [show splitOnceDotDot ('.' :: '.' :: t2) = some ([], t2) from rfl] at h
          injection h with h1
          injection h1 with h2 h3
          rw [← h2, ← h3]
          rfl
        · rw [show splitOnceDotDot ('.' :: y :: t2) =
            (splitOnceDotDot (y :: t2)).map (fun p => ('.' :: p.1, p.2)) from by
              rw [show splitOnceDotDot ('.' :: y :: t2) =
                (if y = '.' then some ([], t2)
                 else (splitOnceDotDot (y :: t2)).map (fun p => ('.' :: p.1, p.2))) from rfl]
              rw [if_neg hy]] at h
          rcases hs : splitOnceDotDot (y :: t2) with _ | ⟨a', b'⟩
          · rw [hs] at h
            exact Option.noConfusion h
          · rw [hs] at h
            injection h with h1
            injection h1 with h2 h3
            rw [← h2, ← h3, ih hs]
            rfl
    · rw [show splitOnceDotDot (x :: t) =
        (splitOnceDotDot t).map (fun p => (x :: p.1, p.2)) from by
          rcases t with _ | ⟨y, t2⟩
          · rw [show splitOnceDotDot (x :: ([] : List Char)) =
              (if x = '.' then none
               else (splitOnceDotDot ([] : List Char)).map (fun p => (x :: p.1, p.2))) from rfl]
            rw [if_neg hx]
          · rw [show splitOnceDotDot (x :: y :: t2) =
              (if x = '.' then
                (if y = '.' then some ([], t2)
                 else (splitOnceDotDot (y :: t2)).map (fun p => (x :: p.1, p.2)))
               else (splitOnceDotDot (y :: t2)).map (fun p => (x :: p.1, p.2))) from rfl]
            rw [if_neg hx]] at h
      rcases hs : splitOnceDotDot t with _ | ⟨a', b'⟩
      · rw [hs] at h
        exact Option.noConfusion h
      · rw [hs] at h
        injection h with h1
        injection h1 with h2 h3
        rw [← h2, ← h3, ih hs]
        rfl

theorem intRaw_sound {f : Field} {s : List Char} {v : ℤ}
    (h : f.intRaw s = .ok v) : 0 ≤ v ∧ v = (digitsVal s : ℤ) := by
  unfold Field.intRaw at h
  split_ifs at h <;>
    first
      | exact Except.noConfusion h
      | (injection h with h3
         exact ⟨h3 ▸ Int.ofNat_nonneg _, h3.symm⟩)

theorem int_sound {f : Field} {s : List Char} {v : ℤ}
    (h : f.int s = .ok v) : v ∈ rangeSet f := by
  unfold Field.int at h
  by_cases hdow : f = Field.dow
  · rw [if_pos hdow] at h
    subst hdow
    split_ifs at h with h1 h2
    · injection h with h3
      have hlt : listIndex (s.map Char.toUpper) SYMBOLIC_DAYS < SYMBOLIC_DAYS.length :=
        listIndex_lt_length h1
      have hlen : SYMBOLIC_DAYS.length = 7 := rfl
      rw [← h3, show rangeSet Field.dow = Finset.Ico (0 : ℤ) 7 from rfl, Finset.mem_Ico]
      omega
    · injection h with h3
      have hlt : listIndex (s.map Char.toUpper) SYMBOLIC_DAYS_SHORT <
          SYMBOLIC_DAYS_SHORT.length :=
        listIndex_lt_length h2
      have hlen : SYMBOLIC_DAYS_SHORT.length = 7 := rfl
      rw [← h3, show rangeSet Field.dow = Finset.Ico (0 : ℤ) 7 from rfl, Finset.mem_Ico]
      omega
  · rw [if_neg hdow] at h
    obtain ⟨v0, hv0, h⟩ := except_bind_ok h
    split_ifs at h with hrange
    · injection h with h3
      rw [← h3]
      exact hrange

theorem int_pos_of_day {s : List Char} {v : ℤ}
    (h : Field.day.int s = .ok v) : 1 ≤ v ∧ v ≤ 31 := by
  have h2 := int_sound h
  rw [show rangeSet Field.day = Finset.Ico (1 : ℤ) 32 from rfl, Finset.mem_Ico] at h2
  omega

theorem rangeList_mem {a b v : ℤ} : v ∈ rangeList a b ↔ a ≤ v ∧ v < b := by
  unfold rangeList
  simp only [List.mem_map, List.mem_range]
  constructor
  · rintro ⟨k, hk, rfl⟩
    omega
  · rintro ⟨h1, h2⟩
    exact ⟨(v - a).toNat, by omega, by omega⟩

theorem everyNth_subset {n : ℕ} {l : List ℤ} {v : ℤ} (h : v ∈ everyNth n l) : v ∈ l := by
  unfold everyNth at h
  rw [List.mem_map] at h
  obtain ⟨p, hp, rfl⟩ := h
  rw [List.mem_filter] at hp
  exact List.snd_mem_of_mem_enum hp.1

theorem everyNth_head {n : ℕ} {x : ℤ} {xs : List ℤ} : x ∈ everyNth n (x :: xs) := by
  unfold everyNth
  rw [List.mem_map]
  refine ⟨(0, x), ?_, rfl⟩
  rw [List.mem_filter]
  constructor
  · rw [List.enum_cons]
    exact List.mem_cons_self _ _
  · simp

theorem head?_rangeList {a b : ℤ} (h : a < b) : (rangeList a b).head? = some a := by
  unfold rangeList
  have hn : (b - a).toNat = ((b - a - 1).toNat) + 1 := by omega
  rw [hn, List.range_succ_eq_map, List.map_cons]
  show some (a + ((0 : ℕ) : ℤ)) = some a
  norm_num

theorem mem_everyNth_head {n : ℕ} {l : List ℤ} {x : ℤ} (h : l.head? = some x) :
    x ∈ everyNth n l := by
  rcases l with _ | ⟨y, ys⟩
  · exact Option.noConfusion h
  · injection h with h1
    rw [← h1]
    exact everyNth_head

/-- Generic soundness for the comma-list fold: if every term's parse result
satisfies `P` and the accumulator does, the folded union does. -/
theorem foldl_union_sound {f : Field} {fuel : ℕ} {rev : Bool} {P : ℤ → Prop} :
    ∀ (terms : List (List Char)) (acc : Finset ℤ), (∀ v ∈ acc, P v) →
      (∀ t ∈ terms, ∀ B : Finset ℤ, parseF f fuel t rev = .ok B → ∀ v ∈ B, P v) →
      ∀ A : Finset ℤ, (terms.foldlM (fun acc term => do
        let r ← parseF f fuel term rev
        pure (acc ∪ r)) acc) = .ok A → ∀ v ∈ A, P v := by
  intro terms
  induction terms with
  | nil =>
    intro acc hacc _ A h v hv
    injection h with h1
    exact hacc v (h1 ▸ hv)
  | cons t ts ih =>
    intro acc hacc hterms A h v hv
    obtain ⟨acc2, hacc2, h⟩ := except_bind_ok h
    obtain ⟨B, hB, hpure⟩ := except_bind_ok hacc2
    injection hpure with h2
    have hacc2P : ∀ v ∈ acc2, P v := by
      intro w hw
      rw [← h2] at hw
      rcases Finset.mem_union.mp hw with hw1 | hw2
      · exact hacc w hw1
      · exact hterms t (List.mem_cons_self t ts) B hB w hw2
    exact ih acc2 hacc2P (fun t2 ht2 => hterms t2 (List.mem_cons_of_mem t ht2)) A h v hv

/-- The comma-list fold result contains the accumulator. -/
theorem foldl_union_superset {f : Field} {fuel : ℕ} {rev : Bool} :
    ∀ (terms : List (List Char)) (acc : Finset ℤ) (A : Finset ℤ),
      (terms.foldlM (fun acc term => do
        let r ← parseF f fuel term rev
        pure (acc ∪ r)) acc) = .ok A → acc ⊆ A := by
  intro terms
  induction terms with
  | nil =>
    intro acc A h
    injection h with h1
    rw [h1]
  | cons t ts ih =>
    intro acc A h
    obtain ⟨acc2, hacc2, h⟩ := except_bind_ok h
    obtain ⟨B, hB, hpure⟩ := except_bind_ok hacc2
    injection hpure with h2
    have := ih acc2 A h
    intro x hx
    exact this (h2 ▸ Finset.mem_union_left B hx)

theorem starFree_sub {s t : List Char} (hsub : ∀ x ∈ t, x ∈ s)
    (h : ¬ s.contains '*' = true) : ¬ t.contains '*' = true :=
  fun hc => h (List.elem_iff.mpr (hsub _ (List.elem_iff.mp hc)))

/-- Every value in a star-free reverse (day-of-month `~`) parse lies in
`[-31, 0]`. -/
theorem parseF_rev_nonpos :
    ∀ (fuel : ℕ) (s : List Char) (A : Finset ℤ), ¬ s.contains '*' = true →
      parseF .day fuel s true = .ok A → ∀ v ∈ A, -31 ≤ v ∧ v ≤ 0 := by
  intro fuel
  induction fuel with
  | zero =>
    intro s A _ h
    exact absurd h (by simp [parseF])
  | succ fuel ih =>
    intro s A hstar h
    simp only [parseF, true_and] at h
    by_cases h1 : s.head? = some '~'
    · rw [if_pos h1] at h
      exact ih s.tail A (starFree_sub (fun x hx => List.mem_of_mem_tail hx) hstar) h
    · rw [if_neg h1] at h
      by_cases h2 : Field.day ≠ Field.dow ∧ s = ['*']
      · exfalso
        apply hstar
        rw [h2.2]
        decide
      · rw [if_neg h2, if_neg hstar,
          if_neg (fun hc : Field.day = Field.dow ∧ s.getLast? = some ',' =>
            absurd hc.1 (by decide)),
          if_neg (fun hc : Field.day = Field.dow ∧ s.contains '-' = true =>
            absurd hc.1 (by decide))] at h
        by_cases h6 : s.contains ',' = true
        · rw [if_pos h6] at h
          intro v hv
          exact @foldl_union_sound Field.day fuel true (fun v => -31 ≤ v ∧ v ≤ 0)
            (splitChar ',' s) ∅ (fun w hw => absurd hw (Finset.not_mem_empty w))
            (fun t ht B hB w hw => ih t B (starFree_sub (splitChar_mem ht) hstar) hB w hw)
            A h v hv
        · rw [if_neg h6] at h
          by_cases h7 : s.contains '/' = true ∧ Field.day ≠ Field.dow
          · rw [if_pos h7] at h
            rcases hsp : splitOnceChar '/' s with _ | ⟨term, stepStr⟩
            · simp only [hsp] at h
              exact absurd h (fun hc => Except.noConfusion hc)
            · simp only [hsp] at h
              obtain ⟨step, hstep, h⟩ := except_bind_ok h
              by_cases hz : step = 0
              · rw [if_pos hz] at h
                exact absurd h (fun hc => Except.noConfusion hc)
              · rw [if_neg hz] at h
                obtain ⟨items, hitems, h⟩ := except_bind_ok h
                have hterm : ¬ term.contains '*' = true :=
                  starFree_sub (fun x hx => by
                    rw [splitOnceChar_eq hsp]
                    exact List.mem_append_left _ hx) hstar
                have hitemsP := ih term items hterm hitems
                by_cases hc1 : items.card = 1
                · rw [if_pos hc1] at h
                  injection h with hA
                  intro v hv
                  rw [← hA, List.mem_toFinset] at hv
                  have hv2 := everyNth_subset hv
                  rw [rangeList_mem] at hv2
                  obtain ⟨x, hx⟩ := Finset.card_eq_one.mp hc1
                  rw [hx, Finset.sort_singleton] at hv2
                  have hh : ([x] : List ℤ).headI = x := rfl
                  rw [hh] at hv2
                  have hxP := hitemsP x (hx ▸ Finset.mem_singleton_self x)
                  rw [if_pos trivial] at hv2
                  omega
                · rw [if_neg hc1] at h
                  injection h with hA
                  intro v hv
                  rw [← hA, List.mem_toFinset] at hv
                  have hv2 := everyNth_subset hv
                  rw [Finset.mem_sort] at hv2
                  exact hitemsP v hv2
          · rw [if_neg h7] at h
            rcases hdd : splitOnceDotDot s with _ | ⟨startStr, endStr⟩
            · simp only [hdd] at h
              obtain ⟨v0, hv0, h⟩ := except_bind_ok h
              rw [if_pos trivial] at h
              by_cases hgt : v0 > 28
              · rw [if_pos hgt] at h
                exact absurd h (fun hc => Except.noConfusion hc)
              · rw [if_neg hgt] at h
                injection h with hA
                intro v hv
                rw [← hA, Finset.mem_singleton] at hv
                have := int_pos_of_day hv0
                omega
            · simp only [hdd] at h
              obtain ⟨start, hstart, h⟩ := except_bind_ok h
              obtain ⟨e, he, h⟩ := except_bind_ok h
              by_cases hlt : e < start
              · rw [if_pos hlt] at h
                exact absurd h (fun hc => Except.noConfusion hc)
              · rw [if_neg hlt, if_pos trivial] at h
                injection h with hA
                intro v hv
                rw [← hA, Finset.mem_Icc] at hv
                have hs1 := int_pos_of_day hstart
                have hs2 := int_pos_of_day he
                omega

/-- The domain of values a successful parse of field `f` can produce: for the
day-of-month field both regular days `1..31` and reverse days `-31..0` (and 0
itself, reachable via `~x/step`), for every other field `set(RANGES[f])`. -/
def fieldDom (f : Field) : Finset ℤ :=
  if f = .day then Finset.Icc (-31) 31 else rangeSet f

theorem rangeSet_nonempty (f : Field) : (rangeSet f).Nonempty := by
  refine ⟨rangeLo f, ?_⟩
  cases f <;> decide

theorem rangeSet_sub_fieldDom (f : Field) : rangeSet f ⊆ fieldDom f := by
  intro v hv
  unfold fieldDom
  by_cases hd : f = Field.day
  · rw [if_pos hd]
    subst hd
    rw [show rangeSet Field.day = Finset.Ico (1 : ℤ) 32 from rfl, Finset.mem_Ico] at hv
    rw [Finset.mem_Icc]
    omega
  · rw [if_neg hd]
    exact hv

theorem fieldDom_le_rangeMax {f : Field} {v : ℤ} (h : v ∈ fieldDom f) :
    v ≤ rangeMax f := by
  unfold fieldDom at h
  by_cases hd : f = Field.day
  · rw [if_pos hd] at h
    rw [Finset.mem_Icc] at h
    have h3 : rangeMax f = 31 := by rw [hd]; decide
    omega
  · rw [if_neg hd] at h
    rw [show rangeSet f = Finset.Ico (rangeLo f) (rangeHi f) from rfl, Finset.mem_Ico] at h
    have h3 : rangeMax f = rangeHi f - 1 := rfl
    omega

theorem fieldDom_closed_Icc {f : Field} {x v : ℤ} (hx : x ∈ fieldDom f)
    (h1 : x ≤ v) (h2 : v ≤ rangeMax f) : v ∈ fieldDom f := by
  unfold fieldDom at hx ⊢
  by_cases hd : f = Field.day
  · rw [if_pos hd] at hx ⊢
    rw [Finset.mem_Icc] at hx ⊢
    have h3 : rangeMax f = 31 := by rw [hd]; decide
    omega
  · rw [if_neg hd] at hx ⊢
    rw [show rangeSet f = Finset.Ico (rangeLo f) (rangeHi f) from rfl, Finset.mem_Ico] at hx ⊢
    have h3 : rangeMax f = rangeHi f - 1 := rfl
    omega

/-- A successful `Field.parse` yields a nonempty set of in-domain values.
(The `rev → day` hypothesis holds at every call site: `reverse=True` is only
ever passed for the day field.) -/
theorem parse_sound :
    ∀ (fuel : ℕ) (f : Field) (s : List Char) (rev : Bool) (A : Finset ℤ),
      (rev = true → f = .day) → parseF f fuel s rev = .ok A →
      A.Nonempty ∧ ∀ v ∈ A, v ∈ fieldDom f := by
  intro fuel
  induction fuel with
  | zero =>
    intro f s rev A _ h
    exact absurd h (by simp [parseF])
  | succ fuel ih =>
    intro f s rev A hrev h
    simp only [parseF] at h
    by_cases h1 : f = Field.day ∧ s.head? = some '~'
    · rw [if_pos h1] at h
      exact ih f s.tail true A (fun _ => h1.1) h
    · rw [if_neg h1] at h
      by_cases h2 : f ≠ Field.dow ∧ s = ['*']
      · rw [if_pos h2] at h
        injection h with hA
        rw [← hA]
        exact ⟨rangeSet_nonempty f, fun v hv => rangeSet_sub_fieldDom f hv⟩
      · rw [if_neg h2] at h
        by_cases h3 : s.contains '*' = true
        · rw [if_pos h3] at h
          exact absurd h (fun hc => Except.noConfusion hc)
        · rw [if_neg h3] at h
          by_cases h4 : f = Field.dow ∧ s.getLast? = some ','
          · rw [if_pos h4] at h
            exact ih f s.dropLast false A (fun hc => Bool.noConfusion hc) h
          · rw [if_neg h4] at h
            by_cases h5 : f = Field.dow ∧ s.contains '-' = true
            · rw [if_pos h5] at h
              exact ih f (replaceChar '-' ('.' :: '.' :: []) s) false A
                (fun hc => Bool.noConfusion hc) h
            · rw [if_neg h5] at h
              by_cases h6 : s.contains ',' = true
              · rw [if_pos h6] at h
                have hsplit : splitChar ',' s =
                    (splitByAux (fun x => x = ',') s).1 ::
                      (splitByAux (fun x => x = ',') s).2 := rfl
                constructor
                · have h' := h
                  rw [hsplit] at h'
                  obtain ⟨acc2, hacc2, hrest⟩ := except_bind_ok h'
                  obtain ⟨B, hB, hpure⟩ := except_bind_ok hacc2
                  injection hpure with hacc2eq
                  obtain ⟨⟨b, hb⟩, _⟩ :=
                    ih f (splitByAux (fun x => x = ',') s).1 rev B hrev hB
                  exact ⟨b, foldl_union_superset _ acc2 A hrest
                    (hacc2eq ▸ Finset.mem_union_right ∅ hb)⟩
                · intro v hv
                  exact @foldl_union_sound f fuel rev (fun v => v ∈ fieldDom f)
                    (splitChar ',' s) ∅ (fun w hw => absurd hw (Finset.not_mem_empty w))
                    (fun t ht B hB w hw => (ih f t rev B hrev hB).2 w hw) A h v hv
              · rw [if_neg h6] at h
                by_cases h7 : s.contains '/' = true ∧ f ≠ Field.dow
                · rw [if_pos h7] at h
                  rcases hsp : splitOnceChar '/' s with _ | ⟨term, stepStr⟩
                  · simp only [hsp] at h
                    exact absurd h (fun hc => Except.noConfusion hc)
                  · simp only [hsp] at h
                    obtain ⟨step, hstep, h⟩ := except_bind_ok h
                    by_cases hz : step = 0
                    · rw [if_pos hz] at h
                      exact absurd h (fun hc => Except.noConfusion hc)
                    · rw [if_neg hz] at h
                      obtain ⟨items, hitems, h⟩ := except_bind_ok h
                      obtain ⟨hne, hdom⟩ := ih f term rev items hrev hitems
                      by_cases hc1 : items.card = 1
                      · rw [if_pos hc1] at h
                        injection h with hA
                        obtain ⟨x, hx⟩ := Finset.card_eq_one.mp hc1
                        have hxdom := hdom x (hx ▸ Finset.mem_singleton_self x)
                        have hhead : (items.sort (· ≤ ·)).headI = x := by
                          rw [hx, Finset.sort_singleton]
                          rfl
                        rcases rev with _ | _
                        · rw [if_neg (fun hc => Bool.noConfusion hc), hhead] at hA
                          constructor
                          · refine ⟨x, ?_⟩
                            rw [← hA, List.mem_toFinset]
                            exact mem_everyNth_head
                              (head?_rangeList (by
                                have := fieldDom_le_rangeMax hxdom
                                omega))
                          · intro v hv
                            rw [← hA, List.mem_toFinset] at hv
                            have hv2 := everyNth_subset hv
                            rw [rangeList_mem] at hv2
                            exact fieldDom_closed_Icc hxdom hv2.1 (by omega)
                        · have hday := hrev rfl
                          subst hday
                          have hxP := parseF_rev_nonpos fuel term items
                            (starFree_sub (fun y hy => by
                              rw [splitOnceChar_eq hsp]
                              exact List.mem_append_left _ hy) h3) hitems x
                            (hx ▸ Finset.mem_singleton_self x)
                          rw [if_pos rfl, hhead] at hA
                          constructor
                          · refine ⟨x, ?_⟩
                            rw [← hA, List.mem_toFinset]
                            exact mem_everyNth_head (head?_rangeList (by omega))
                          · intro v hv
                            rw [← hA, List.mem_toFinset] at hv
                            have hv2 := everyNth_subset hv
                            rw [rangeList_mem] at hv2
                            rw [show fieldDom Field.day = Finset.Icc (-31) 31 from rfl,
                              Finset.mem_Icc]
                            omega
                      · rw [if_neg hc1] at h
                        injection h with hA
                        constructor
                        · obtain ⟨b, hb⟩ := hne
                          have hlen : (items.sort (· ≤ ·)).length = items.card :=
                            Finset.length_sort _
                          have hnil : items.sort (· ≤ ·) ≠ [] := by
                            intro hc
                            rw [hc] at hlen
                            have hpos := Finset.card_pos.mpr ⟨b, hb⟩
                            rw [List.length_nil] at hlen
                            omega
                          obtain ⟨y, ys, hys⟩ := List.exists_cons_of_ne_nil hnil
                          refine ⟨y, ?_⟩
                          rw [← hA, List.mem_toFinset, hys]
                          exact everyNth_head
                        · intro v hv
                          rw [← hA, List.mem_toFinset] at hv
                          have hv2 := everyNth_subset hv
                          rw [Finset.mem_sort] at hv2
                          exact hdom v hv2
                · rw [if_neg h7] at h
                  rcases hdd : splitOnceDotDot s with _ | ⟨startStr, endStr⟩
                  · simp only [hdd] at h
                    obtain ⟨v0, hv0, h⟩ := except_bind_ok h
                    rcases rev with _ | _
                    · rw [if_neg (fun hc => Bool.noConfusion hc)] at h
                      injection h with hA
                      rw [← hA]
                      refine ⟨Finset.singleton_nonempty v0, fun v hv => ?_⟩
                      rw [Finset.mem_singleton] at hv
                      rw [hv]
                      exact rangeSet_sub_fieldDom f (int_sound hv0)
                    · have hday := hrev rfl
                      subst hday
                      rw [if_pos rfl] at h
                      by_cases hgt : v0 > 28
                      · rw [if_pos hgt] at h
                        exact absurd h (fun hc => Except.noConfusion hc)
                      · rw [if_neg hgt] at h
                        injection h with hA
                        rw [← hA]
                        refine ⟨Finset.singleton_nonempty (-v0), fun v hv => ?_⟩
                        rw [Finset.mem_singleton] at hv
                        have := int_pos_of_day hv0
                        rw [show fieldDom Field.day = Finset.Icc (-31) 31 from rfl,
                          Finset.mem_Icc]
                        omega
                  · simp only [hdd] at h
                    obtain ⟨start, hstart, hb1⟩ := except_bind_ok h
                    obtain ⟨e, he, hb2⟩ := except_bind_ok hb1
                    by_cases hlt : e < start
                    · rw [if_pos hlt] at hb2
                      exact absurd hb2 (fun hc => Except.noConfusion hc)
                    · rw [if_neg hlt] at hb2
                      rcases rev with _ | _
                      · rw [if_neg (fun hc => Bool.noConfusion hc)] at hb2
                        injection hb2 with hA
                        rw [← hA]
                        have h1' := int_sound hstart
                        have h2' := int_sound he
                        rw [show rangeSet f = Finset.Ico (rangeLo f) (rangeHi f) from rfl,
                          Finset.mem_Ico] at h1' h2'
                        constructor
                        · exact Finset.nonempty_Icc.mpr (by omega)
                        · intro v hv
                          rw [Finset.mem_Icc] at hv
                          apply rangeSet_sub_fieldDom
                          rw [show rangeSet f = Finset.Ico (rangeLo f) (rangeHi f) from rfl,
                            Finset.mem_Ico]
                          omega
                      · have hday := hrev rfl
                        subst hday
                        rw [if_pos rfl] at hb2
                        injection hb2 with hA
                        rw [← hA]
                        have h1' := int_pos_of_day hstart
                        have h2' := int_pos_of_day he
                        constructor
                        · exact Finset.nonempty_Icc.mpr (by omega)
                        · intro v hv
                          rw [Finset.mem_Icc] at hv
                          rw [show fieldDom Field.day = Finset.Icc (-31) 31 from rfl,
                            Finset.mem_Icc]
                          omega

/-- Python `str.strip()`. -/
def pyStrip (l : List Char) : List Char :=
  ((l.dropWhile Char.isWhitespace).reverse.dropWhile Char.isWhitespace).reverse

/-- Python `s.rsplit(maxsplit=1)` on a stripped string that contains
whitespace: the part before the final whitespace run, and the final token. -/
def rsplit1 (l : List Char) : List Char × List Char :=
  (((l.reverse.dropWhile (fun c => !c.isWhitespace)).dropWhile Char.isWhitespace).reverse,
   (l.reverse.takeWhile (fun c => !c.isWhitespace)).reverse)

/-- `parse_tz`: reject a token starting with a digit or `*` without consulting
the zone database, otherwise look the name up. The zone database (`ZoneInfo`)
is a parameter of the model. -/
def parse_tz (lookup : List Char → Option Zone) (value : List Char) : Option Zone :=
  match value.head? with
  | none => none
  | some c => if digitStarChars.contains c then none else lookup value

/-- `TzIterator.__init__`. `conv z start` models `start.astimezone(z)`; the
saved `local_tz` only affects the final `astimezone` applied to returned
values, which maps instants to the same instants, so it is not tracked. -/
def tzInit (lookup : List Char → Option Zone) (conv : Zone → DT → DT)
    (expression : List Char) (start : DT) (startTz : TzInfo) :
    Except Err IterState :=
  match startTz with
  | .naive => .error .notAware
  | _ =>
    if (pyStrip expression).contains ' ' then
      match parse_tz lookup (rsplit1 (pyStrip expression)).2 with
      | some z => mkIter (rsplit1 (pyStrip expression)).1 (conv z start) (.zone z)
      | none => mkIter (pyStrip expression) start startTz
    else mkIter (pyStrip expression) start startTz

/-- A sub-iterator of the `OnCalendar` multiplexer, abstracted as its output
stream (instants on the absolute time line), a cursor into the stream, and
the value cached in `self.iterators[it]`. -/
structure MuxEntry where
  stream : ℕ → Option ℤ
  idx : ℕ
  cached : ℤ

/-- The per-iterator update of `OnCalendar.__next__`: a sub-iterator whose
cached value is due (`≤ self.dt`) is pulled; one that raises `StopIteration`
is removed (`none`). -/
def muxAdvance (dt : ℤ) (e : MuxEntry) : Option MuxEntry :=
  if e.cached ≤ dt then
    match e.stream e.idx with
    | some v => some { e with idx := e.idx + 1, cached := v }
    | none => none
  else some e

/-- The state of an `OnCalendar` iterator: the cursor and the surviving
sub-iterators. -/
structure MuxState where
  dt : ℤ
  entries : List MuxEntry

/-- The sub-iterator table after one round of updates. -/
def muxEntries (st : MuxState) : List MuxEntry :=
  (st.entries.map (muxAdvance st.dt)).filterMap id

/-- `OnCalendar.__next__`: update the due sub-iterators, stop when none
remain, otherwise return (and move the cursor to) the minimum cached value. -/
def muxNext (st : MuxState) : Option (ℤ × MuxState) :=
  match ((muxEntries st).map MuxEntry.cached).min? with
  | none => none
  | some m => some (m, MuxState.mk m (muxEntries st))

/-- Well-formedness of a sub-iterator entry relative to the multiplexer
cursor `dt`: the cached value is no earlier than `dt`, the next stream output
(if any) is strictly after the cached value, and the stream is strictly
increasing. -/
def EntryOK (dt : ℤ) (e : MuxEntry) : Prop :=
  dt ≤ e.cached ∧
  (∀ v, e.stream e.idx = some v → e.cached < v) ∧
  (∀ i v, e.stream (i + 1) = some v → ∃ w, e.stream i = some w ∧ w < v)

theorem muxAdvance_ok {dt : ℤ} {e e' : MuxEntry}
    (hE : EntryOK dt e) (hA : muxAdvance dt e = some e') :
    dt < e'.cached ∧
      (∀ v, e'.stream e'.idx = some v → e'.cached < v) ∧
      (∀ i v, e'.stream (i + 1) = some v → ∃ w, e'.stream i = some w ∧ w < v) := by
  unfold muxAdvance at hA
  split_ifs at hA with hle
  · rcases hs : e.stream e.idx with _ | v
    · simp only [hs] at hA
      exact Option.noConfusion hA
    · simp only [hs] at hA
      injection hA with h1
      rw [← h1]
      refine ⟨?_, ?_, hE.2.2⟩
      · have h2 := hE.2.1 v hs
        have h3 := hE.1
        show dt < v
        omega
      · intro v' hv'
        show v < v'
        obtain ⟨w, hw, hlt⟩ := hE.2.2 e.idx v' hv'
        rw [hs] at hw
        injection hw with h2
        omega
  · injection hA with h1
    rw [← h1]
    have h3 := hE.1
    exact ⟨by omega, hE.2.1, hE.2.2⟩

theorem mem_muxEntries {st : MuxState} {e' : MuxEntry} (h : e' ∈ muxEntries st) :
    ∃ e ∈ st.entries, muxAdvance st.dt e = some e' := by
  unfold muxEntries at h
  rw [List.mem_filterMap] at h
  obtain ⟨o, ho, hid⟩ := h
  rw [List.mem_map] at ho
  obtain ⟨e, he, hoe⟩ := ho
  exact ⟨e, he, by rw [hoe]; exact hid⟩

/-- One multiplexer pull: with well-formed entries, the returned instant is
strictly after the cursor, the cursor moves to it, and the surviving entries
are again well-formed. -/
theorem muxNext_strict {st : MuxState} (hOK : ∀ e ∈ st.entries, EntryOK st.dt e)
    {m : ℤ} {st' : MuxState} (h : muxNext st = some (m, st')) :
    st.dt < m ∧ st'.dt = m ∧ ∀ e ∈ st'.entries, EntryOK st'.dt e := by
  have hall : ∀ e' ∈ muxEntries st, st.dt < e'.cached ∧
      (∀ v, e'.stream e'.idx = some v → e'.cached < v) ∧
      (∀ i v, e'.stream (i + 1) = some v → ∃ w, e'.stream i = some w ∧ w < v) := by
    intro e' he'
    obtain ⟨e, he, hA⟩ := mem_muxEntries he'
    exact muxAdvance_ok (hOK e he) hA
  unfold muxNext at h
  rcases hmin : ((muxEntries st).map MuxEntry.cached).min? with _ | m0
  · simp only [hmin] at h
    exact Option.noConfusion h
  · simp only [hmin] at h
    injection h with h1
    injection h1 with h2 h3
    haveI : Std.Antisymm ((· : ℤ) ≤ ·) := ⟨fun h1 h2 => le_antisymm h1 h2⟩
    obtain ⟨hmem, hle⟩ := (List.min?_eq_some_iff (fun a : ℤ => le_refl a)
      (fun a b => min_choice a b) (fun a b c => le_min_iff)).mp hmin
    rw [List.mem_map] at hmem
    obtain ⟨e0, he0, hc0⟩ := hmem
    have hda : st.dt < m0 := by
      have := (hall e0 he0).1
      omega
    refine ⟨by omega, ?_, ?_⟩
    · rw [← h3]
      exact h2
    · intro e he
      rw [← h3] at he ⊢
      have he2 : e ∈ muxEntries st := he
      obtain ⟨h1', h2', h3'⟩ := hall e he2
      exact ⟨hle e.cached (List.mem_map.mpr ⟨e, he2, rfl⟩), h2', h3'⟩

/-- When a DST-fixup zone is installed, a value returned by the `__next__`
loop is never an imaginary instant of that zone: the loop re-enters with one
more second instead of returning such a candidate. -/
theorem loopF_fixup :
    ∀ (fuel : ℕ) {st : IterState} {z : Zone} {r : DT} {st' : IterState},
      st.fixupTz = some z → loopF fuel st = .value r st' → is_imaginary z r = false := by
  intro fuel
  induction fuel with
  | zero =>
    intro st z r st' _ h
    rw [show loopF 0 st = .timeout from rfl] at h
    exact PullResult.noConfusion h
  | succ k ih =>
    intro st z r st' hfx h
    simp only [loopF] at h
    set dt1 := advance_year st.years st.dt with hdt1
    by_cases hstop : MAX_YEAR ≤ dt1.year
    case pos =>
      rw [if_pos hstop] at h
      exact PullResult.noConfusion h
    rw [if_neg hstop] at h
    by_cases hmo : (advance_month st.months dt1).1 = true
    case pos =>
      rw [if_pos hmo] at h
      exact @ih { st with dt := (advance_month st.months dt1).2 } z r st' hfx h
    rw [if_neg hmo] at h
    by_cases hda : (advance_day st.weekdays st.days st.anyReverseDay dt1).1 = true
    case pos =>
      rw [if_pos hda] at h
      exact @ih { st with dt := (advance_day st.weekdays st.days st.anyReverseDay dt1).2 }
        z r st' hfx h
    rw [if_neg hda] at h
    by_cases hho : (advance_hour st.hours dt1).1 = true
    case pos =>
      rw [if_pos hho] at h
      exact @ih { st with dt := (advance_hour st.hours dt1).2 } z r st' hfx h
    rw [if_neg hho] at h
    by_cases hmi : (advance_minute st.minutes dt1).1 = true
    case pos =>
      rw [if_pos hmi] at h
      exact @ih { st with dt := (advance_minute st.minutes dt1).2 } z r st' hfx h
    rw [if_neg hmi] at h
    by_cases hse : (advance_second st.seconds dt1).1 = true
    case pos =>
      rw [if_pos hse] at h
      exact @ih { st with dt := (advance_second st.seconds dt1).2 } z r st' hfx h
    rw [if_neg hse] at h
    rw [hfx, opt_elim_some] at h
    split_ifs at h with him
    · exact @ih (IterState.mk st.weekdays st.years st.months st.days st.hours
        st.minutes st.seconds (some z) st.anyReverseDay dt1.addSecond) z r st' rfl h
    · injection h with h1 h2
      subst h1
      cases hb : is_imaginary z dt1
      · rfl
      · exact absurd hb him

/-- Pulling never changes the installed DST-fixup zone. -/
theorem pullSeq_fixupTz {fuel : ℕ} {st : IterState} (hI : Inv st) :
    ∀ (n : ℕ) {r : DT} {st1 : IterState}, pullSeq fuel st n = some (r, st1) →
      st1.fixupTz = st.fixupTz := by
  intro n
  induction n with
  | zero =>
    intro r st1 h
    rw [show pullSeq fuel st 0 = (match pullF fuel st with
      | .value r st' => some (r, st')
      | _ => none) from rfl] at h
    rcases hp : pullF fuel st with _ | _ | ⟨r2, st2⟩
    · simp only [hp] at h
      exact Option.noConfusion h
    · simp only [hp] at h
      exact Option.noConfusion h
    · simp only [hp] at h
      injection h with h1
      injection h1 with h2 h3
      subst h3
      obtain ⟨ha, _, _, _⟩ := pullF_value hI hp
      rw [ha]
  | succ k ih =>
    intro r st1 h
    rw [show pullSeq fuel st (k + 1) = (match pullSeq fuel st k with
      | some (_, st1) =>
        match pullF fuel st1 with
        | .value r st' => some (r, st')
        | _ => none
      | none => none) from rfl] at h
    rcases hk : pullSeq fuel st k with _ | ⟨r1, stk⟩
    · simp only [hk] at h
      exact Option.noConfusion h
    · simp only [hk] at h
      have hIk := (pullSeq_inv hI k hk).1
      rcases hp : pullF fuel stk with _ | _ | ⟨r2, st2⟩
      · simp only [hp] at h
        exact Option.noConfusion h
      · simp only [hp] at h
        exact Option.noConfusion h
      · simp only [hp] at h
        injection h with h1
        injection h1 with h2 h3
        subst h3
        obtain ⟨ha, _, _, _⟩ := pullF_value hIk hp
        rw [ha]
        show stk.fixupTz = st.fixupTz
        exact ih hk

/-- A `pullF` value with a fixup zone installed is never imaginary. -/
theorem pullF_fixup {fuel : ℕ} {st : IterState} {z : Zone} {r : DT} {st' : IterState}
    (hfx : st.fixupTz = some z) (h : pullF fuel st = .value r st') :
    is_imaginary z r = false := by
  unfold pullF at h
  exact @loopF_fixup fuel { st with dt := st.dt.addSecond } z r st' hfx h

/-- Two-digit year reinterpretation, low half: a year literal `0..69` resolves
to `value + 2000`. -/
theorem int_year_low {s : List Char} {v0 : ℤ}
    (hraw : Field.year.intRaw s = .ok v0) (h0 : 0 ≤ v0) (h69 : v0 ≤ 69) :
    Field.year.int s = .ok (v0 + 2000) := by
  unfold Field.int
  rw [if_neg (by decide : ¬ Field.year = Field.dow)]
  rw [hraw]
  have hbind : ∀ g : ℤ → Except Err ℤ, ((Except.ok v0 : Except Err ℤ) >>= g) = g v0 :=
    fun g => rfl
  rw [hbind]
  have hYA : yearAdjust Field.year v0 = v0 + 2000 := by
    unfold yearAdjust
    rw [if_pos (⟨rfl, by omega⟩ : Field.year = Field.year ∧ v0 < 70)]
    rw [if_neg (fun hc : Field.year = Field.year ∧ v0 + 2000 < 100 =>
      absurd hc.2 (by omega))]
  rw [hYA]
  rw [if_pos (by
    rw [show rangeSet Field.year = Finset.Ico (1970 : ℤ) 2200 from rfl, Finset.mem_Ico]
    omega)]
  rfl

/-- Two-digit year reinterpretation, high half: a year literal `70..99`
resolves to `value + 1900`. -/
theorem int_year_high {s : List Char} {v0 : ℤ}
    (hraw : Field.year.intRaw s = .ok v0) (h70 : 70 ≤ v0) (h99 : v0 ≤ 99) :
    Field.year.int s = .ok (v0 + 1900) := by
  unfold Field.int
  rw [if_neg (by decide : ¬ Field.year = Field.dow)]
  rw [hraw]
  have hbind : ∀ g : ℤ → Except Err ℤ, ((Except.ok v0 : Except Err ℤ) >>= g) = g v0 :=
    fun g => rfl
  rw [hbind]
  have hYA : yearAdjust Field.year v0 = v0 + 1900 := by
    unfold yearAdjust
    rw [if_neg (fun hc : Field.year = Field.year ∧ v0 < 70 => absurd hc.2 (by omega))]
    rw [if_pos (⟨rfl, by omega⟩ : Field.year = Field.year ∧ v0 < 100)]
  rw [hYA]
  rw [if_pos (by
    rw [show rangeSet Field.year = Finset.Ico (1970 : ℤ) 2200 from rfl, Finset.mem_Ico]
    omega)]
  rfl

theorem mem_everyNth_iff {n : ℕ} {l : List ℤ} {v : ℤ} :
    v ∈ everyNth n l ↔ ∃ i : ℕ, i % n = 0 ∧ l[i]? = some v := by
  unfold everyNth
  rw [List.mem_map]
  constructor
  · rintro ⟨⟨i, w⟩, hp, hw⟩
    rw [List.mem_filter] at hp
    refine ⟨i, ?_, ?_⟩
    · have h2 := hp.2
      simpa using h2
    · rw [List.mk_mem_enum_iff_getElem?.mp hp.1]
      exact congrArg some hw
  · rintro ⟨i, hi, hg⟩
    refine ⟨(i, v), ?_, rfl⟩
    rw [List.mem_filter]
    exact ⟨List.mk_mem_enum_iff_getElem?.mpr hg, decide_eq_true hi⟩

theorem rangeList_getElem {a b : ℤ} {i : ℕ} {v : ℤ} :
    (rangeList a b)[i]? = some v ↔ (i : ℤ) < b - a ∧ v = a + i := by
  unfold rangeList
  rw [List.getElem?_map]
  by_cases hi : i < (b - a).toNat
  · rw [List.getElem?_range hi]
    constructor
    · intro h
      injection h with h1
      have h2 : a + (i : ℤ) = v := h1
      exact ⟨by omega, by omega⟩
    · rintro ⟨h1, rfl⟩
      rfl
  · have hlen : (List.range (b - a).toNat).length ≤ i := by
      rw [List.length_range]
      omega
    rw [List.getElem?_eq_none hlen]
    constructor
    · intro h
      exact absurd h (fun hc => Option.noConfusion hc)
    · rintro ⟨h1, rfl⟩
      exact absurd h1 (by omega)

/-- Membership in a step-evaluated range: exactly the arithmetic sequence
`a, a + n, a + 2n, …` truncated strictly below `b`. -/
theorem step_mem {n : ℕ} (hn : 0 < n) {a b v : ℤ} :
    v ∈ (everyNth n (rangeList a b)).toFinset ↔
      ∃ k : ℕ, v = a + (k : ℤ) * (n : ℤ) ∧ v < b := by
  rw [List.mem_toFinset, mem_everyNth_iff]
  constructor
  · rintro ⟨i, hi, hg⟩
    rw [rangeList_getElem] at hg
    have hd : n * (i / n) = i := Nat.mul_div_cancel' (Nat.dvd_of_mod_eq_zero hi)
    refine ⟨i / n, ?_, by omega⟩
    rw [hg.2]
    congr 1
    have h2 : ((n * (i / n) : ℕ) : ℤ) = ((i : ℕ) : ℤ) := congrArg _ hd
    push_cast at h2
    rw [mul_comm ((i / n : ℕ) : ℤ) (n : ℤ)]
    exact h2.symm
  · rintro ⟨k, hk, hv⟩
    refine ⟨k * n, Nat.mul_mod_left k n, ?_⟩
    rw [rangeList_getElem]
    constructor
    · push_cast
      rw [hk] at hv
      linarith
    · rw [hk]
      push_cast
      ring

/-- The step (`term/n`) branch of `Field.parse` with a singleton seed: the
result is `everyNth` over the integer range from the seed to the field's
maximum (or to 0 in reverse-day mode). -/
theorem parse_step {f : Field} {fuel : ℕ} {s term stepStr : List Char} {rev : Bool}
    {n x : ℤ}
    (hdow : f ≠ .dow)
    (h1 : ¬ (f = .day ∧ s.head? = some '~'))
    (h3 : ¬ s.contains '*' = true)
    (h6 : ¬ s.contains ',' = true)
    (hsp : splitOnceChar '/' s = some (term, stepStr))
    (hstep : f.intRaw stepStr = .ok n)
    (hn : n ≠ 0)
    (hterm : parseF f fuel term rev = .ok ({x} : Finset ℤ)) :
    parseF f (fuel + 1) s rev =
      .ok (everyNth n.toNat
        (rangeList x ((if rev = true then 0 else rangeMax f) + 1))).toFinset := by
  have hc7 : s.contains '/' = true := by
    rw [splitOnceChar_eq hsp]
    exact List.elem_iff.mpr (List.mem_append_right term (List.mem_cons_self '/' stepStr))
  simp only [parseF]
  rw [if_neg h1]
  rw [if_neg (fun hc : f ≠ Field.dow ∧ s = '*' :: [] => h3 (by rw [hc.2]; decide))]
  rw [if_neg h3]
  rw [if_neg (fun hc : f = Field.dow ∧ s.getLast? = some ',' => hdow hc.1)]
  rw [if_neg (fun hc : f = Field.dow ∧ s.contains '-' = true => hdow hc.1)]
  rw [if_neg h6]
  rw [if_pos (⟨hc7, hdow⟩ : s.contains '/' = true ∧ f ≠ Field.dow)]
  simp only [hsp]
  rw [hstep]
  have hbind : ∀ g : ℤ → Except Err (Finset ℤ),
      ((Except.ok n : Except Err ℤ) >>= g) = g n := fun g => rfl
  rw [hbind]
  rw [if_neg hn]
  rw [hterm]
  have hbind2 : ∀ g : Finset ℤ → Except Err (Finset ℤ),
      ((Except.ok ({x} : Finset ℤ) : Except Err (Finset ℤ)) >>= g) = g {x} :=
    fun g => rfl
  rw [hbind2]
  rw [if_pos (Finset.card_singleton x)]
  rw [show (({x} : Finset ℤ).sort (· ≤ ·)).headI = x from by
    rw [Finset.sort_singleton]
    rfl]

/-- The step branch rejects a zero step (`term/0`) for every field. -/
theorem parse_step_zero {f : Field} {fuel : ℕ} {s term stepStr : List Char} {rev : Bool}
    (hdow : f ≠ .dow)
    (h1 : ¬ (f = .day ∧ s.head? = some '~'))
    (h3 : ¬ s.contains '*' = true)
    (h6 : ¬ s.contains ',' = true)
    (hsp : splitOnceChar '/' s = some (term, stepStr))
    (hstep : f.intRaw stepStr = .ok 0) :
    parseF f (fuel + 1) s rev = .error (.badField f) := by
  have hc7 : s.contains '/' = true := by
    rw [splitOnceChar_eq hsp]
    exact List.elem_iff.mpr (List.mem_append_right term (List.mem_cons_self '/' stepStr))
  simp only [parseF]
  rw [if_neg h1]
  rw [if_neg (fun hc : f ≠ Field.dow ∧ s = '*' :: [] => h3 (by rw [hc.2]; decide))]
  rw [if_neg h3]
  rw [if_neg (fun hc : f = Field.dow ∧ s.getLast? = some ',' => hdow hc.1)]
  rw [if_neg (fun hc : f = Field.dow ∧ s.contains '-' = true => hdow hc.1)]
  rw [if_neg h6]
  rw [if_pos (⟨hc7, hdow⟩ : s.contains '/' = true ∧ f ≠ Field.dow)]
  simp only [hsp]
  rw [hstep]
  have hbind : ∀ g : ℤ → Except Err (Finset ℤ),
      ((Except.ok (0 : ℤ) : Except Err ℤ) >>= g) = g 0 := fun g => rfl
  rw [hbind]
  rw [if_pos rfl]

/-- A decomposition failure makes iterator construction fail with the same
error. -/
theorem mkIter_err {e : List Char} {s : DT} {tz : TzInfo} {err : Err}
    (h : decompose e = .error err) : mkIter e s tz = .error err := by
  unfold mkIter
  rw [h]
  rfl

/-- A successfully constructed `TzIterator` satisfies the iteration invariant
(given that the start instant is a real datetime and `astimezone` always
produces real datetimes). -/
theorem tzInit_inv {lookup : List Char → Option Zone} {conv : Zone → DT → DT}
    {e : List Char} {s : DT} {tz : TzInfo} {st : IterState}
    (hv : s.Valid) (hconv : ∀ z d, d.Valid → (conv z d).Valid)
    (h : tzInit lookup conv e s tz = .ok st) : Inv st := by
  cases tz with
  | naive => exact absurd h (fun hc => Except.noConfusion hc)
  | utc =>
    have heq : tzInit lookup conv e s .utc =
        (if (pyStrip e).contains ' ' = true then
          (match parse_tz lookup (rsplit1 (pyStrip e)).2 with
           | some z => mkIter (rsplit1 (pyStrip e)).1 (conv z s) (.zone z)
           | none => mkIter (pyStrip e) s .utc)
         else mkIter (pyStrip e) s .utc) := rfl
    rw [heq] at h
    split_ifs at h with hsp
    · rcases hz : parse_tz lookup (rsplit1 (pyStrip e)).2 with _ | z
      · simp only [hz] at h
        exact mkIter_inv hv h
      · simp only [hz] at h
        exact mkIter_inv (hconv z s hv) h
    · exact mkIter_inv hv h
  | zone z0 =>
    have heq : tzInit lookup conv e s (.zone z0) =
        (if (pyStrip e).contains ' ' = true then
          (match parse_tz lookup (rsplit1 (pyStrip e)).2 with
           | some z => mkIter (rsplit1 (pyStrip e)).1 (conv z s) (.zone z)
           | none => mkIter (pyStrip e) s (.zone z0))
         else mkIter (pyStrip e) s (.zone z0)) := rfl
    rw [heq] at h
    split_ifs at h with hsp
    · rcases hz : parse_tz lookup (rsplit1 (pyStrip e)).2 with _ | z
      · simp only [hz] at h
        exact mkIter_inv hv h
      · simp only [hz] at h
        exact mkIter_inv (hconv z s hv) h
    · exact mkIter_inv hv h

/-- Concrete fixtures used by witnesses. -/
def dt2024 : DT := DT.mk 2024 1 1 0 0 0 0

/-- The iterator of `*-*-* *:*:*` started at 2024-01-01 00:00:00 (naive). -/
def stAll : IterState :=
  IterState.mk (rangeSet .dow) (rangeSet .year) (rangeSet .month) (rangeSet .day)
    (rangeSet .hour) (rangeSet .minute) (rangeSet .second) none false dt2024

/-- An iterator whose cursor already sits at the horizon year. -/
def stHorizon : IterState :=
  IterState.mk ∅ ∅ ∅ ∅ ∅ ∅ ∅ none false (DT.mk 2200 1 1 0 0 0 0)

/-- An iterator whose year set lies wholly before the cursor year. -/
def stPast : IterState :=
  IterState.mk ∅ ({1980} : Finset ℤ) ∅ ∅ ∅ ∅ ∅ none false dt2024

def dt2020 : DT := DT.mk 2020 1 1 0 0 0 0

/-- The iterator of the past-date expression `2018-01-01` started in 2020. -/
def st2018 : IterState :=
  IterState.mk (rangeSet .dow) ({2018} : Finset ℤ) ({1} : Finset ℤ) ({1} : Finset ℤ)
    ({0} : Finset ℤ) ({0} : Finset ℤ) ({0} : Finset ℤ) none false dt2020

/-- C2: a pull with fuel `MSecs + 1` always terminates with an instant or the
end-of-sequence signal (never fuel exhaustion); when the advanced year reaches
`MAX_YEAR` (2200) the pull signals end-of-sequence; and an iterator whose year
set lies entirely before the cursor's year signals end-of-sequence on the very
first pull. -/
theorem claim_C2 :
    (∀ st : IterState, Inv st → pullF (MSecs + 1) st ≠ .timeout) ∧
    (∀ (st : IterState) (fuel : ℕ),
       MAX_YEAR ≤ (advance_year st.years st.dt.addSecond).year →
       pullF (fuel + 1) st = .stop) ∧
    (∀ (st : IterState) (fuel : ℕ), Inv st → (∀ y ∈ st.years, y < (st.dt.year : ℤ)) →
       pullF (fuel + 1) st = .stop) ∧
    (∀ (e : List Char) (s : DT) (tz : TzInfo) (st : IterState) (fuel : ℕ),
       s.Valid → mkIter e s tz = .ok st → (∀ y ∈ st.years, y < (s.year : ℤ)) →
       pullF (fuel + 1) st = .stop) := by
  refine ⟨fun _ hI => pullF_no_timeout hI,
    fun _ fuel h => pullF_stop_of_horizon fuel h,
    fun _ fuel hI h => pullF_stop_of_past fuel hI h,
    ?_⟩
  intro e s tz st fuel hv hmk h
  have hy : st.dt.year = s.year := by
    rw [(mkIter_ok hmk).1]
    rfl
  apply pullF_stop_of_past fuel (mkIter_inv hv hmk)
  intro y hy2
  rw [hy]
  exact h y hy2

theorem claim_C2_witness :
    Inv stAll ∧ pullF (MSecs + 1) stAll ≠ .timeout ∧
    MAX_YEAR ≤ (advance_year stHorizon.years stHorizon.dt.addSecond).year ∧
    pullF (0 + 1) stHorizon = .stop ∧
    Inv stPast ∧ (∀ y ∈ stPast.years, y < (stPast.dt.year : ℤ)) ∧
    pullF (0 + 1) stPast = .stop ∧
    dt2020.Valid ∧
    mkIter ("2018-01-01".data) dt2020 .naive = .ok st2018 ∧
    (∀ y ∈ st2018.years, y < (dt2020.year : ℤ)) ∧
    pullF (0 + 1) st2018 = .stop :=
  ⟨by decide, claim_C2.1 stAll (by decide),
   by decide, claim_C2.2.1 stHorizon 0 (by decide),
   by decide, by decide, claim_C2.2.2.1 stPast 0 (by decide) (by decide),
   by decide, rfl, by decide,
   claim_C2.2.2.2 ("2018-01-01".data) dt2020 .naive st2018 0 (by decide) rfl (by decide)⟩

/-- C3 (amended): every successful field parse yields a nonempty finite set
inside the field's domain, where the day-of-month domain is `-31..31`:
reverse-day members can have magnitude up to 31 (not 28), and 0 is a possible
member (via a reverse step seed), contrary to the original claim. -/
theorem claim_C3 :
    ∀ (f : Field) (s : List Char) (rev : Bool) (A : Finset ℤ),
      (rev = true → f = .day) → Field.parse f s rev = .ok A →
      A.Nonempty ∧ ∀ v ∈ A, v ∈ fieldDom f :=
  fun f s rev A hrev h => parse_sound (s.length + 4) f s rev A hrev h

theorem claim_C3_witness :
    Field.parse .minute ("5".data) false = .ok ({5} : Finset ℤ) ∧
    (({5} : Finset ℤ).Nonempty ∧ ∀ v ∈ ({5} : Finset ℤ), v ∈ fieldDom .minute) :=
  ⟨by decide,
   claim_C3 .minute ("5".data) false ({5} : Finset ℤ)
     (fun hc => Bool.noConfusion hc) (by decide)⟩

/-- C3 counterexample: the reverse interval `~29..31` parses to
`{-31, -30, -29}` (members of magnitude 29..31, all above 28), and the
reverse step `~28/7` parses to `{-28, -21, -14, -7, 0}` with 0 a member. -/
theorem claim_C3_counterexample :
    Field.parse .day ("~29..31".data) false = .ok ({-31, -30, -29} : Finset ℤ) ∧
    (-31 : ℤ) ∈ ({-31, -30, -29} : Finset ℤ) ∧
    Field.parse .day ("~28/7".data) false = .ok ({-28, -21, -14, -7, 0} : Finset ℤ) ∧
    (0 : ℤ) ∈ ({-28, -21, -14, -7, 0} : Finset ℤ) := by
  refine ⟨by decide, by decide, ?_, by decide⟩
  have h1 : Field.parse .day ("~28/7".data) false = parseF .day 8 ("28/7".data) true := rfl
  have h2 : parseF .day 7 ("28".data) true = .ok ({-28} : Finset ℤ) := by decide
  have h3 := @parse_step Field.day 7 ("28/7".data) ("28".data) ("7".data) true 7 (-28)
    (by decide) (by decide) (by decide) (by decide) (by decide) (by decide) (by decide) h2
  rw [h1, h3]
  decide

set_option maxRecDepth 8192 in
/-- C4 (amended): in reverse (day-of-month `~`) mode, the `v > 28` rejection
happens in the bare-literal branch, so it applies to every grammar form that
resolves its values through that branch — whole tokens, list terms and step
seeds (`~29/7` and `~29,1` both fail with the day-of-month error) — but NOT
to interval bounds: a reverse interval is negated and swapped without any
magnitude check, so `~30..31` parses to `{-31, -30}` instead of failing. The
date token `*-*~1` yields day set `{-1}`. -/
theorem claim_C4 :
    (∀ (s : List Char) (v : ℤ),
       s.head? ≠ some '~' → s ≠ '*' :: [] → ¬ s.contains '*' = true →
       ¬ s.contains ',' = true → ¬ s.contains '/' = true →
       splitOnceDotDot s = none → Field.day.int s = .ok v → 28 < v →
       Field.parse .day s true = .error (.badField .day)) ∧
    Field.parse .day ("~29/7".data) false = .error (.badField .day) ∧
    Field.parse .day ("~29,1".data) false = .error (.badField .day) ∧
    (∀ (s startStr endStr : List Char) (start e : ℤ),
       s.head? ≠ some '~' → s ≠ '*' :: [] → ¬ s.contains '*' = true →
       ¬ s.contains ',' = true → ¬ s.contains '/' = true →
       splitOnceDotDot s = some (startStr, endStr) →
       Field.day.int startStr = .ok start → Field.day.int endStr = .ok e →
       ¬ e < start →
       Field.parse .day s true = .ok (Finset.Icc (-e) (-start))) ∧
    decompose ("*-*~1".data) = .ok (SpecSets.mk (rangeSet .dow) (rangeSet .year)
      (rangeSet .month) ({-1} : Finset ℤ) ({0} : Finset ℤ) ({0} : Finset ℤ)
      ({0} : Finset ℤ)) := by
  refine ⟨?_, by decide, by decide, ?_, by decide⟩
  · intro s v hh hne hstar hcomma hslash hdd hint hgt
    have h4 : Field.parse .day s true = parseF .day ((s.length + 3) + 1) s true := rfl
    rw [h4]
    simp only [parseF, true_and]
    rw [if_neg hh]
    rw [if_neg (fun hc : Field.day ≠ Field.dow ∧ s = '*' :: [] => hne hc.2)]
    rw [if_neg hstar]
    rw [if_neg (fun hc : Field.day = Field.dow ∧ s.getLast? = some ',' =>
      absurd hc.1 (by decide))]
    rw [if_neg (fun hc : Field.day = Field.dow ∧ s.contains '-' = true =>
      absurd hc.1 (by decide))]
    rw [if_neg hcomma]
    rw [if_neg (fun hc : s.contains '/' = true ∧ Field.day ≠ Field.dow => hslash hc.1)]
    simp only [hdd]
    rw [hint]
    have hbind : ∀ g : ℤ → Except Err (Finset ℤ),
        ((Except.ok v : Except Err ℤ) >>= g) = g v := fun g => rfl
    rw [hbind]
    rw [if_pos trivial]
    rw [if_pos hgt]
  · intro s startStr endStr start e hh hne hstar hcomma hslash hdd hstart hend hlt
    have h4 : Field.parse .day s true = parseF .day ((s.length + 3) + 1) s true := rfl
    rw [h4]
    simp only [parseF, true_and]
    rw [if_neg hh]
    rw [if_neg (fun hc : Field.day ≠ Field.dow ∧ s = '*' :: [] => hne hc.2)]
    rw [if_neg hstar]
    rw [if_neg (fun hc : Field.day = Field.dow ∧ s.getLast? = some ',' =>
      absurd hc.1 (by decide))]
    rw [if_neg (fun hc : Field.day = Field.dow ∧ s.contains '-' = true =>
      absurd hc.1 (by decide))]
    rw [if_neg hcomma]
    rw [if_neg (fun hc : s.contains '/' = true ∧ Field.day ≠ Field.dow => hslash hc.1)]
    simp only [hdd]
    rw [hstart]
    have hbind1 : ∀ g : ℤ → Except Err (Finset ℤ),
        ((Except.ok start : Except Err ℤ) >>= g) = g start := fun g => rfl
    rw [hbind1]
    rw [hend]
    have hbind2 : ∀ g : ℤ → Except Err (Finset ℤ),
        ((Except.ok e : Except Err ℤ) >>= g) = g e := fun g => rfl
    rw [hbind2]
    rw [if_neg hlt]
    rw [if_pos trivial]

theorem claim_C4_witness :
    ("29".data.head? ≠ some '~') ∧ ("29".data ≠ '*' :: []) ∧
    (¬ "29".data.contains '*' = true) ∧ (¬ "29".data.contains ',' = true) ∧
    (¬ "29".data.contains '/' = true) ∧ splitOnceDotDot ("29".data) = none ∧
    Field.day.int ("29".data) = .ok 29 ∧ 28 < (29 : ℤ) ∧
    Field.parse .day ("29".data) true = .error (.badField .day) ∧
    splitOnceDotDot ("30..31".data) = some ("30".data, "31".data) ∧
    Field.day.int ("30".data) = .ok 30 ∧ Field.day.int ("31".data) = .ok 31 ∧
    Field.parse .day ("30..31".data) true = .ok (Finset.Icc (-31) (-30)) :=
  ⟨by decide, by decide, by decide, by decide, by decide, by decide, by decide, by decide,
   claim_C4.1 ("29".data) 29 (by decide) (by decide) (by decide) (by decide) (by decide)
     (by decide) (by decide) (by decide),
   by decide, by decide, by decide,
   claim_C4.2.2.2.1 ("30..31".data) ("30".data) ("31".data) 30 31 (by decide) (by decide)
     (by decide) (by decide) (by decide) (by decide) (by decide) (by decide) (by decide)⟩

/-- C4 counterexample: the reverse interval `~30..31` resolves the values 30
and 31 (both above 28) yet parsing succeeds with `{-31, -30}` instead of
failing. -/
theorem claim_C4_counterexample :
    Field.parse .day ("~30..31".data) false = .ok ({-31, -30} : Finset ℤ) := by decide

/-- C5: for the year field, a bare integer literal 0..69 resolves to
`value + 2000` and 70..99 to `value + 1900`; every successfully resolved year
lies in `1970..2199`; and the date tokens `69-*-*` and `70-*-*` decompose to
year sets `{2069}` and `{1970}`. -/
theorem claim_C5 :
    (∀ (s : List Char) (v0 : ℤ), Field.year.intRaw s = .ok v0 → 0 ≤ v0 → v0 ≤ 69 →
       Field.year.int s = .ok (v0 + 2000)) ∧
    (∀ (s : List Char) (v0 : ℤ), Field.year.intRaw s = .ok v0 → 70 ≤ v0 → v0 ≤ 99 →
       Field.year.int s = .ok (v0 + 1900)) ∧
    (∀ (s : List Char) (v : ℤ), Field.year.int s = .ok v → v ∈ rangeSet .year) ∧
    decompose ("69-*-*".data) = .ok (SpecSets.mk (rangeSet .dow) ({2069} : Finset ℤ)
      (rangeSet .month) (rangeSet .day) ({0} : Finset ℤ) ({0} : Finset ℤ)
      ({0} : Finset ℤ)) ∧
    decompose ("70-*-*".data) = .ok (SpecSets.mk (rangeSet .dow) ({1970} : Finset ℤ)
      (rangeSet .month) (rangeSet .day) ({0} : Finset ℤ) ({0} : Finset ℤ)
      ({0} : Finset ℤ)) :=
  ⟨fun _ _ h h0 h69 => int_year_low h h0 h69,
   fun _ _ h h70 h99 => int_year_high h h70 h99,
   fun _ _ h => int_sound h,
   by decide, by decide⟩

theorem claim_C5_witness :
    Field.year.intRaw ("69".data) = .ok 69 ∧ Field.year.int ("69".data) = .ok 2069 ∧
    Field.year.intRaw ("70".data) = .ok 70 ∧ Field.year.int ("70".data) = .ok 1970 ∧
    (2069 : ℤ) ∈ rangeSet .year :=
  ⟨by decide,
   claim_C5.1 ("69".data) 69 (by decide) (by decide) (by decide),
   by decide,
   claim_C5.2.1 ("70".data) 70 (by decide) (by decide) (by decide),
   claim_C5.2.2.1 ("69".data) 2069 (by decide)⟩

def wDt1 : DT := DT.mk 2024 1 1 0 0 1 0

def wDt2 : DT := DT.mk 2024 1 1 0 0 2 0

/-- A start instant with a nonzero sub-second component. -/
def dtMicro : DT := DT.mk 2024 1 1 0 0 0 500000

/-- The iterator of `0:0` started at 2024-01-01 00:00:00 (UTC-aware). -/
def st00 : IterState :=
  IterState.mk (rangeSet .dow) (rangeSet .year) (rangeSet .month) (rangeSet .day)
    ({0} : Finset ℤ) ({0} : Finset ℤ) ({0} : Finset ℤ) none false dt2024

/-- A zone whose round trip restores 2024-01-01 00:00:01. -/
def wZone : Zone := Zone.mk (fun _ => 0) (fun _ => wDt1)

/-- The every-second iterator with a DST-fixup zone installed. -/
def stZ : IterState :=
  IterState.mk (rangeSet .dow) (rangeSet .year) (rangeSet .month) (rangeSet .day)
    (rangeSet .hour) (rangeSet .minute) (rangeSet .second) (some wZone) false dt2024

/-- A strictly increasing sub-iterator stream for the multiplexer. -/
def wStream : ℕ → Option ℤ := fun i => some ((i : ℤ) + 1)

def wEntry : MuxEntry := MuxEntry.mk wStream 0 0

def wMux : MuxState := MuxState.mk 0 (wEntry :: [])

/-- C1: the instants produced by repeated pulls are strictly increasing and
the first returned instant strictly exceeds the start instant; the
`OnCalendar` multiplexer, merging well-formed sub-iterators by returning the
minimum cached instant, also returns a value strictly above its cursor and
preserves well-formedness. -/
theorem claim_C1 :
    (∀ (fuel : ℕ) (e : List Char) (s : DT) (tz : TzInfo) (st : IterState) (n : ℕ)
       (r1 r2 : DT) (st1 st2 : IterState),
       s.Valid → mkIter e s tz = .ok st →
       pullSeq fuel st n = some (r1, st1) → pullSeq fuel st (n + 1) = some (r2, st2) →
       r1.toMicros < r2.toMicros) ∧
    (∀ (fuel : ℕ) (e : List Char) (s : DT) (tz : TzInfo) (st : IterState) (n : ℕ)
       (r : DT) (st1 : IterState),
       s.Valid → mkIter e s tz = .ok st → pullSeq fuel st n = some (r, st1) →
       s.toMicros < r.toMicros) ∧
    (∀ (st : MuxState) (m : ℤ) (st' : MuxState),
       (∀ en ∈ st.entries, EntryOK st.dt en) → muxNext st = some (m, st') →
       st.dt < m ∧ st'.dt = m ∧ ∀ en ∈ st'.entries, EntryOK st'.dt en) := by
  refine ⟨?_, ?_, fun st m st' hOK h => muxNext_strict hOK h⟩
  · intro fuel e s tz st n r1 r2 st1 st2 hv hmk h1 h2
    exact (pullSeq_strictMono (mkIter_inv hv hmk) h1 h2).2
  · intro fuel e s tz st n r st1 hv hmk h
    obtain ⟨_, _, hmic, hsec⟩ := pullSeq_inv (mkIter_inv hv hmk) n h
    have e1 := toMicros_toSecs r
    have e2 := toMicros_toSecs s
    have e3 : st.dt.toSecs = s.toSecs := by
      rw [(mkIter_ok hmk).1]
      exact truncMicro_toSecs s
    have hm2 : s.micro < 1000000 := hv.2.2.2.2
    omega

theorem claim_C1_witness :
    dt2024.Valid ∧
    mkIter ("*-*-* *:*:*".data) dt2024 .naive = .ok stAll ∧
    pullSeq 2 stAll 0 = some (wDt1, { stAll with dt := wDt1 }) ∧
    pullSeq 2 stAll (0 + 1) = some (wDt2, { stAll with dt := wDt2 }) ∧
    wDt1.toMicros < wDt2.toMicros ∧
    dt2024.toMicros < wDt1.toMicros ∧
    (∀ en ∈ wMux.entries, EntryOK wMux.dt en) ∧
    muxNext wMux = some (1, MuxState.mk 1 (MuxEntry.mk wStream 1 1 :: [])) ∧
    wMux.dt < 1 := by
  have hOK : ∀ en ∈ wMux.entries, EntryOK wMux.dt en := by
    intro en hen
    have he : en = wEntry := List.mem_singleton.mp hen
    subst he
    refine ⟨le_refl 0, ?_, ?_⟩
    · intro v h
      injection h with h1
      show (0 : ℤ) < v
      omega
    · intro i v h
      injection h with h1
      refine ⟨(i : ℤ) + 1, rfl, ?_⟩
      omega
  exact ⟨by decide, rfl, rfl, rfl,
    claim_C1.1 2 ("*-*-* *:*:*".data) dt2024 .naive stAll 0 wDt1 wDt2
      { stAll with dt := wDt1 } { stAll with dt := wDt2 } (by decide) rfl rfl rfl,
    claim_C1.2.1 2 ("*-*-* *:*:*".data) dt2024 .naive stAll 0 wDt1
      { stAll with dt := wDt1 } (by decide) rfl rfl,
    hOK, rfl,
    (claim_C1.2.2 wMux 1 (MuxState.mk 1 (MuxEntry.mk wStream 1 1 :: [])) hOK rfl).1⟩

/-- C6: for a step token `term/n` (n > 0) whose term parses to a singleton
`{x}`, the result is `everyNth n` over the integer range from `x` to the
field's maximum (or to 0 in reverse-day mode), i.e. the arithmetic sequence
`x, x + n, x + 2n, …` truncated at the bound; the minute token `0/15` parses
to `{0, 15, 30, 45}`; a zero step fails with the field's error. -/
theorem claim_C6 :
    (∀ (f : Field) (fuel : ℕ) (s term stepStr : List Char) (rev : Bool) (n x : ℤ),
       f ≠ .dow → ¬ (f = .day ∧ s.head? = some '~') → ¬ s.contains '*' = true →
       ¬ s.contains ',' = true → splitOnceChar '/' s = some (term, stepStr) →
       f.intRaw stepStr = .ok n → n ≠ 0 →
       parseF f fuel term rev = .ok ({x} : Finset ℤ) →
       parseF f (fuel + 1) s rev =
         .ok (everyNth n.toNat
           (rangeList x ((if rev = true then 0 else rangeMax f) + 1))).toFinset) ∧
    (∀ (n : ℕ) (a b v : ℤ), 0 < n →
       (v ∈ (everyNth n (rangeList a b)).toFinset ↔
         ∃ k : ℕ, v = a + (k : ℤ) * (n : ℤ) ∧ v < b)) ∧
    Field.parse .minute ("0/15".data) false = .ok ({0, 15, 30, 45} : Finset ℤ) ∧
    (∀ (f : Field) (fuel : ℕ) (s term stepStr : List Char) (rev : Bool),
       f ≠ .dow → ¬ (f = .day ∧ s.head? = some '~') → ¬ s.contains '*' = true →
       ¬ s.contains ',' = true → splitOnceChar '/' s = some (term, stepStr) →
       f.intRaw stepStr = .ok 0 →
       parseF f (fuel + 1) s rev = .error (.badField f)) := by
  refine ⟨fun f fuel s term stepStr rev n x hdow h1 h3 h6 hsp hstep hn hterm =>
      parse_step hdow h1 h3 h6 hsp hstep hn hterm,
    fun n a b v hn => step_mem hn,
    ?_,
    fun f fuel s term stepStr rev hdow h1 h3 h6 hsp hstep =>
      parse_step_zero hdow h1 h3 h6 hsp hstep⟩
  have h1 : Field.parse .minute ("0/15".data) false =
      parseF .minute (7 + 1) ("0/15".data) false := rfl
  have h2 : parseF .minute 7 ("0".data) false = .ok ({0} : Finset ℤ) := by decide
  have h3 := @parse_step Field.minute 7 ("0/15".data) ("0".data) ("15".data) false 15 0
    (by decide) (by decide) (by decide) (by decide) (by decide) (by decide) (by decide) h2
  rw [h1, h3]
  decide

theorem claim_C6_witness :
    parseF .hour 3 ("0".data) false = .ok ({0} : Finset ℤ) ∧
    Field.hour.intRaw ("6".data) = .ok 6 ∧
    parseF .hour (3 + 1) ("0/6".data) false =
      .ok (everyNth (6 : ℤ).toNat
        (rangeList 0 ((if false = true then 0 else rangeMax .hour) + 1))).toFinset ∧
    (0 : ℕ) < 6 ∧
    ((12 : ℤ) ∈ (everyNth 6 (rangeList 0 24)).toFinset ↔
      ∃ k : ℕ, (12 : ℤ) = 0 + (k : ℤ) * (6 : ℤ) ∧ (12 : ℤ) < 24) ∧
    Field.hour.intRaw ("0".data) = .ok 0 ∧
    parseF .hour (3 + 1) ("0/0".data) false = .error (.badField .hour) :=
  ⟨by decide, by decide,
   claim_C6.1 .hour 3 ("0/6".data) ("0".data) ("6".data) false 6 0 (by decide) (by decide)
     (by decide) (by decide) (by decide) (by decide) (by decide) (by decide),
   by decide,
   claim_C6.2.1 6 0 24 12 (by decide),
   by decide,
   claim_C6.2.2.2 .hour 3 ("0/0".data) ("0".data) ("0".data) false (by decide) (by decide)
     (by decide) (by decide) (by decide) (by decide)⟩

/-- C7: the zone-awareness requirement and all field/shape validation happen
at construction; once a `TzIterator` is successfully constructed, every pull
along the iteration (with fuel `MSecs + 1`) returns an instant or the
end-of-sequence signal, never fuel exhaustion; and a trailing token that the
zone database does not resolve is treated as part of the calendar expression,
not as an error by itself. -/
theorem claim_C7 :
    (∀ (lookup : List Char → Option Zone) (conv : Zone → DT → DT) (e : List Char)
       (s : DT) (tz : TzInfo) (st : IterState),
       s.Valid → (∀ z d, d.Valid → (conv z d).Valid) →
       tzInit lookup conv e s tz = .ok st →
       pullF (MSecs + 1) st ≠ .timeout ∧
       ∀ (n : ℕ) (r : DT) (st1 : IterState),
         pullSeq (MSecs + 1) st n = some (r, st1) →
         pullF (MSecs + 1) st1 ≠ .timeout) ∧
    (∀ (lookup : List Char → Option Zone) (conv : Zone → DT → DT) (e : List Char)
       (s : DT), tzInit lookup conv e s .naive = .error .notAware) ∧
    (∀ (lookup : List Char → Option Zone) (conv : Zone → DT → DT) (e : List Char)
       (s : DT), (pyStrip e).contains ' ' = true →
       parse_tz lookup (rsplit1 (pyStrip e)).2 = none →
       tzInit lookup conv e s .utc = mkIter (pyStrip e) s .utc) := by
  refine ⟨?_, fun lookup conv e s => rfl, ?_⟩
  · intro lookup conv e s tz st hv hconv h
    have hI := tzInit_inv hv hconv h
    exact ⟨pullF_no_timeout hI,
      fun n r st1 hn => pullF_no_timeout (pullSeq_inv hI n hn).1⟩
  · intro lookup conv e s hsp hz
    have heq : tzInit lookup conv e s .utc =
        (if (pyStrip e).contains ' ' = true then
          (match parse_tz lookup (rsplit1 (pyStrip e)).2 with
           | some z => mkIter (rsplit1 (pyStrip e)).1 (conv z s) (.zone z)
           | none => mkIter (pyStrip e) s .utc)
         else mkIter (pyStrip e) s .utc) := rfl
    rw [heq, if_pos hsp]
    simp only [hz]

theorem claim_C7_witness :
    dt2024.Valid ∧
    tzInit (fun _ => none) (fun _ d => d) ("0:0".data) dt2024 .utc = .ok st00 ∧
    pullF (MSecs + 1) st00 ≠ .timeout ∧
    tzInit (fun _ => none) (fun _ d => d) ("0:0".data) dt2024 .naive =
      .error .notAware ∧
    (pyStrip ("0:0 Mars/Phobos".data)).contains ' ' = true ∧
    parse_tz (fun _ => none) (rsplit1 (pyStrip ("0:0 Mars/Phobos".data))).2 = none ∧
    tzInit (fun _ => none) (fun _ d => d) ("0:0 Mars/Phobos".data) dt2024 .utc =
      mkIter (pyStrip ("0:0 Mars/Phobos".data)) dt2024 .utc :=
  ⟨by decide, rfl,
   (claim_C7.1 (fun _ => none) (fun _ d => d) ("0:0".data) dt2024 .utc st00 (by decide)
     (fun _ _ h => h) rfl).1,
   claim_C7.2.1 (fun _ => none) (fun _ d => d) ("0:0".data) dt2024,
   by decide, rfl,
   claim_C7.2.2 (fun _ => none) (fun _ d => d) ("0:0 Mars/Phobos".data) dt2024
     (by decide) rfl⟩

/-- C8: with a DST-fixup zone installed, no instant returned along the
iteration is imaginary: every returned instant survives the round trip
through absolute time. -/
theorem claim_C8 :
    ∀ (fuel : ℕ) (st : IterState) (z : Zone) (n : ℕ) (r : DT) (st1 : IterState),
      Inv st → st.fixupTz = some z → pullSeq fuel st n = some (r, st1) →
      is_imaginary z r = false ∧ z.ofUTC (z.toUTC r) = r := by
  intro fuel st z n r st1 hI hfx h
  have him : is_imaginary z r = false := by
    cases n with
    | zero =>
      rw [show pullSeq fuel st 0 = (match pullF fuel st with
        | .value r st' => some (r, st')
        | _ => none) from rfl] at h
      rcases hp : pullF fuel st with _ | _ | ⟨r2, st2⟩
      · simp only [hp] at h
        exact Option.noConfusion h
      · simp only [hp] at h
        exact Option.noConfusion h
      · simp only [hp] at h
        injection h with h1
        injection h1 with h2 h3
        subst h2
        exact pullF_fixup hfx hp
    | succ k =>
      rw [show pullSeq fuel st (k + 1) = (match pullSeq fuel st k with
        | some (_, st1) =>
          match pullF fuel st1 with
          | .value r st' => some (r, st')
          | _ => none
        | none => none) from rfl] at h
      rcases hk : pullSeq fuel st k with _ | ⟨r1, stk⟩
      · simp only [hk] at h
        exact Option.noConfusion h
      · simp only [hk] at h
        rcases hp : pullF fuel stk with _ | _ | ⟨r2, st2⟩
        · simp only [hp] at h
          exact Option.noConfusion h
        · simp only [hp] at h
          exact Option.noConfusion h
        · simp only [hp] at h
          injection h with h1
          injection h1 with h2 h3
          subst h2
          have hfxk : stk.fixupTz = some z := by
            rw [pullSeq_fixupTz hI k hk]
            exact hfx
          exact pullF_fixup hfxk hp
  refine ⟨him, ?_⟩
  have h2 : ¬ (z.ofUTC (z.toUTC r) ≠ r) := of_decide_eq_false him
  exact not_not.mp h2

theorem claim_C8_witness :
    Inv stZ ∧ stZ.fixupTz = some wZone ∧
    pullSeq 2 stZ 0 = some (wDt1, { stZ with dt := wDt1 }) ∧
    is_imaginary wZone wDt1 = false ∧ wZone.ofUTC (wZone.toUTC wDt1) = wDt1 :=
  ⟨by decide, rfl, rfl,
   (claim_C8 2 stZ wZone 0 wDt1 { stZ with dt := wDt1 } (by decide) rfl rfl).1,
   (claim_C8 2 stZ wZone 0 wDt1 { stZ with dt := wDt1 } (by decide) rfl rfl).2⟩

/-- C9: the cursor starts at the microsecond-truncated start instant, every
returned instant has a zero sub-second component, and every returned instant
(in particular the first) strictly exceeds the untruncated start. -/
theorem claim_C9 :
    ∀ (e : List Char) (s : DT) (tz : TzInfo) (st : IterState) (fuel n : ℕ)
      (r : DT) (st1 : IterState), s.Valid → mkIter e s tz = .ok st →
      st.dt = truncMicro s ∧
        (pullSeq fuel st n = some (r, st1) → r.micro = 0 ∧ s.toMicros < r.toMicros) := by
  intro e s tz st fuel n r st1 hv hmk
  refine ⟨(mkIter_ok hmk).1, fun h => ?_⟩
  obtain ⟨_, _, hmic, hsec⟩ := pullSeq_inv (mkIter_inv hv hmk) n h
  refine ⟨hmic, ?_⟩
  have e1 := toMicros_toSecs r
  have e2 := toMicros_toSecs s
  have e3 : st.dt.toSecs = s.toSecs := by
    rw [(mkIter_ok hmk).1]
    exact truncMicro_toSecs s
  have hm2 : s.micro < 1000000 := hv.2.2.2.2
  omega

theorem claim_C9_witness :
    dtMicro.Valid ∧ mkIter ("*-*-* *:*:*".data) dtMicro .naive = .ok stAll ∧
    stAll.dt = truncMicro dtMicro ∧
    pullSeq 2 stAll 0 = some (wDt1, { stAll with dt := wDt1 }) ∧
    wDt1.micro = 0 ∧ dtMicro.toMicros < wDt1.toMicros :=
  ⟨by decide, rfl,
   (claim_C9 ("*-*-* *:*:*".data) dtMicro .naive stAll 2 0 wDt1
     { stAll with dt := wDt1 } (by decide) rfl).1,
   rfl,
   ((claim_C9 ("*-*-* *:*:*".data) dtMicro .naive stAll 2 0 wDt1
     { stAll with dt := wDt1 } (by decide) rfl).2 rfl).1,
   ((claim_C9 ("*-*-* *:*:*".data) dtMicro .naive stAll 2 0 wDt1
     { stAll with dt := wDt1 } (by decide) rfl).2 rfl).2⟩

/-- C10: a zone name is only stripped from an expression that contains
internal whitespace; a single whitespace-free token — even one the zone
database resolves, such as `Europe/Riga` alone — is parsed as a calendar
expression, so construction fails instead of defaulting the calendar
fields. -/
theorem claim_C10 :
    (∀ (lookup : List Char → Option Zone) (conv : Zone → DT → DT) (e : List Char)
       (s : DT), ¬ (pyStrip e).contains ' ' = true →
       tzInit lookup conv e s .utc = mkIter (pyStrip e) s .utc ∧
       ∀ z0 : Zone,
         tzInit lookup conv e s (.zone z0) = mkIter (pyStrip e) s (.zone z0)) ∧
    (∀ (lookup : List Char → Option Zone) (conv : Zone → DT → DT) (s : DT) (z : Zone),
       lookup ("Europe/Riga".data) = some z →
       tzInit lookup conv ("Europe/Riga".data) s .utc = .error (.badField .dow)) := by
  constructor
  · intro lookup conv e s hns
    constructor
    · have heq : tzInit lookup conv e s .utc =
          (if (pyStrip e).contains ' ' = true then
            (match parse_tz lookup (rsplit1 (pyStrip e)).2 with
             | some z => mkIter (rsplit1 (pyStrip e)).1 (conv z s) (.zone z)
             | none => mkIter (pyStrip e) s .utc)
           else mkIter (pyStrip e) s .utc) := rfl
      rw [heq, if_neg hns]
    · intro z0
      have heq : tzInit lookup conv e s (.zone z0) =
          (if (pyStrip e).contains ' ' = true then
            (match parse_tz lookup (rsplit1 (pyStrip e)).2 with
             | some z => mkIter (rsplit1 (pyStrip e)).1 (conv z s) (.zone z)
             | none => mkIter (pyStrip e) s (.zone z0))
           else mkIter (pyStrip e) s (.zone z0)) := rfl
      rw [heq, if_neg hns]
  · intro lookup conv s z hz
    have heq : tzInit lookup conv ("Europe/Riga".data) s .utc =
        mkIter ("Europe/Riga".data) s .utc := rfl
    rw [heq]
    exact mkIter_err (by decide)

theorem claim_C10_witness :
    (¬ (pyStrip ("Mon".data)).contains ' ' = true) ∧
    tzInit (fun _ => none) (fun _ d => d) ("Mon".data) dt2024 .utc =
      mkIter (pyStrip ("Mon".data)) dt2024 .utc ∧
    tzInit (fun _ => none) (fun _ d => d) ("Mon".data) dt2024 (.zone wZone) =
      mkIter (pyStrip ("Mon".data)) dt2024 (.zone wZone) ∧
    ((fun _ : List Char => some wZone) ("Europe/Riga".data) = some wZone) ∧
    tzInit (fun _ => some wZone) (fun _ d => d) ("Europe/Riga".data) dt2024 .utc =
      .error (.badField .dow) :=
  ⟨by decide,
   (claim_C10.1 (fun _ => none) (fun _ d => d) ("Mon".data) dt2024 (by decide)).1,
   (claim_C10.1 (fun _ => none) (fun _ d => d) ("Mon".data) dt2024 (by decide)).2 wZone,
   rfl,
   claim_C10.2 (fun _ => some wZone) (fun _ d => d) dt2024 wZone rfl⟩

end OnCal
